import Mathlib

/-!
Verification of the masking / shape utility module (`npf/jax/functional.py`).

The development shallowly embeds the module's functions over explicit
shape lists (`List ℕ`) and flat row-major data (`List α`).  Python
exceptions are modelled with `Except PyError`; Python `int` arguments are
`ℤ`; a Python `int | Sequence[int]` axis argument is `PyAxis`, and an
optional one is `Option PyAxis`.

Python's built-in `set` of small integers is modelled canonically as a
strictly sorted duplicate-free list (`pySet`), so `tuple(set(...))`
enumerates in ascending order in this model.  (CPython's actual
iteration order is a hash-table artefact and is not part of the model.)
-/

/-- Python exception kinds raised by the module: `ValueError` (also used for
numpy's `AxisError`, which subclasses it), `TypeError` and `IndexError`. -/
inductive PyError : Type
  | valueError
  | typeError
  | indexError
deriving DecidableEq, Repr

/-- A Python `int | Sequence[int]` axis argument. -/
inductive PyAxis : Type
  | int (n : ℤ)
  | seq (l : List ℤ)
deriving DecidableEq, Repr

instance {ε α : Type} [DecidableEq ε] [DecidableEq α] : DecidableEq (Except ε α) := fun x y =>
  match x, y with
  | .error a, .error b =>
      if h : a = b then isTrue (by rw [h]) else isFalse (fun hc => h (by injection hc))
  | .ok a, .ok b =>
      if h : a = b then isTrue (by rw [h]) else isFalse (fun hc => h (by injection hc))
  | .error _, .ok _ => isFalse (fun hc => by injection hc)
  | .ok _, .error _ => isFalse (fun hc => by injection hc)

/-- Scalar-to-singleton normalization: `[a] if isinstance(a, int) else a`. -/
def toIntList : PyAxis → List ℤ
  | .int n => [n]
  | .seq l => l

/-- Axis normalization used throughout the module: `d if d >= 0 else d + r`. -/
def pyNorm (r : ℕ) (d : ℤ) : ℤ := if 0 ≤ d then d else d + r

/-- The list `[0, 1, ..., n-1]` over ℤ, i.e. `range(n)` as integers. -/
def intRangeZ (n : ℕ) : List ℤ := List.map (fun k : ℕ => (k : ℤ)) (List.range n)

/-- Insert an integer into a strictly sorted list, keeping it sorted and
duplicate-free (the building block of the canonical `set` model). -/
def insertSorted (x : ℤ) : List ℤ → List ℤ
  | [] => [x]
  | y :: ys => if x < y then x :: y :: ys else if x = y then y :: ys else y :: insertSorted x ys

/-- Python `set(l)` for integer lists, modelled canonically as the strictly
sorted duplicate-free list of `l`'s elements. -/
def pySet (l : List ℤ) : List ℤ := l.foldr insertSorted []

/-- Python set difference `l - r` on the canonical representation. -/
def setDiff (l r : List ℤ) : List ℤ := l.filter (fun x => decide (x ∉ r))

/-- Shallow embedding of `process_mask_axis(a_ndim, mask_ndim, mask_axis,
non_mask_axis)`.  Returns the resolved pair `(mask_axis, non_mask_axis)`
or the raised error.  Python's `ValueError` checks are reproduced verbatim;
note that in the `non_mask_axis` branch the length comparison
`len(non_mask_axis) != a_ndim - mask_ndim` is over ℤ, as in Python. -/
def processMaskAxis (aNdim maskNdim : ℕ) (maskAxis nonMaskAxis : Option PyAxis) :
    Except PyError (List ℤ × List ℤ) :=
  match maskAxis, nonMaskAxis with
  | none, none =>
      if aNdim ≠ maskNdim then .error .valueError
      else .ok (intRangeZ aNdim, [])
  | some ma, none =>
      let l := toIntList ma
      if l.length ≠ maskNdim then .error .valueError
      else
        let s := pySet (l.map (pyNorm aNdim))
        .ok (s, setDiff (intRangeZ aNdim) s)
  | none, some nma =>
      let l := toIntList nma
      if (l.length : ℤ) ≠ (aNdim : ℤ) - (maskNdim : ℤ) then .error .valueError
      else
        let s := pySet (l.map (pyNorm aNdim))
        .ok (setDiff (intRangeZ aNdim) s, s)
  | some _, some _ => .error .valueError

/-- Every entry of an axis argument is an in-range index of an `r`-rank
array, i.e. lies in `[-r, r)`.  `none` holds vacuously. -/
def axisEntriesInRange (r : ℕ) : Option PyAxis → Bool
  | none => true
  | some ax => (toIntList ax).all (fun d => decide (-(r : ℤ) ≤ d) && decide (d < (r : ℤ)))

/-- The entries of an axis argument normalize to pairwise distinct axes.
`none` holds vacuously. -/
def normNodupB (r : ℕ) : Option PyAxis → Bool
  | none => true
  | some ax => decide (((toIntList ax).map (pyNorm r)).Nodup)

section SetModelLemmas

theorem mem_insertSorted (x y : ℤ) (l : List ℤ) :
    y ∈ insertSorted x l ↔ y = x ∨ y ∈ l := by
  induction l with
  | nil => simp [insertSorted]
  | cons z zs ih =>
      by_cases h1 : x < z
      · rw [insertSorted, if_pos h1]
        simp only [List.mem_cons]
      · by_cases h2 : x = z
        · subst h2
          rw [insertSorted, if_neg h1, if_pos rfl]
          simp only [List.mem_cons]
          tauto
        · rw [insertSorted, if_neg h1, if_neg h2]
          simp only [List.mem_cons, ih]
          tauto

theorem sorted_insertSorted (x : ℤ) (l : List ℤ) (h : l.Sorted (· < ·)) :
    (insertSorted x l).Sorted (· < ·) := by
  induction l with
  | nil => simp [insertSorted]
  | cons z zs ih =>
      rw [List.sorted_cons] at h
      by_cases h1 : x < z
      · rw [insertSorted, if_pos h1, List.sorted_cons]
        refine ⟨?_, by rw [List.sorted_cons]; exact h⟩
        intro b hb
        rw [List.mem_cons] at hb
        rcases hb with hb | hb
        · exact hb ▸ h1
        · exact h1.trans (h.1 b hb)
      · by_cases h2 : x = z
        · rw [insertSorted, if_neg h1, if_pos h2, List.sorted_cons]
          exact h
        · rw [insertSorted, if_neg h1, if_neg h2, List.sorted_cons]
          refine ⟨?_, ih h.2⟩
          intro b hb
          rw [mem_insertSorted] at hb
          rcases hb with hb | hb
          · subst hb
            omega
          · exact h.1 b hb

theorem length_insertSorted (x : ℤ) (l : List ℤ) (h : l.Sorted (· < ·)) :
    (insertSorted x l).length = if x ∈ l then l.length else l.length + 1 := by
  induction l with
  | nil => simp [insertSorted]
  | cons z zs ih =>
      rw [List.sorted_cons] at h
      by_cases h1 : x < z
      · have hx : x ∉ z :: zs := by
          intro hmem
          rcases List.mem_cons.mp hmem with h' | h'
          · omega
          · have := h.1 x h'
            omega
        rw [insertSorted, if_pos h1, if_neg hx]
        simp
      · by_cases h2 : x = z
        · subst h2
          rw [insertSorted, if_neg h1, if_pos rfl, if_pos (List.mem_cons_self _ _)]
        · have hxz : x ∈ z :: zs ↔ x ∈ zs := by
            simp [List.mem_cons, h2]
          rw [insertSorted, if_neg h1, if_neg h2]
          by_cases h3 : x ∈ zs
          · rw [if_pos (hxz.mpr h3)]
            simp [ih h.2, h3]
          · rw [if_neg (fun hc => h3 (hxz.mp hc))]
            simp [ih h.2, h3]

theorem sorted_pySet (l : List ℤ) : (pySet l).Sorted (· < ·) := by
  induction l with
  | nil => simp [pySet]
  | cons a l ih => exact sorted_insertSorted a (pySet l) ih

theorem mem_pySet (x : ℤ) (l : List ℤ) : x ∈ pySet l ↔ x ∈ l := by
  induction l with
  | nil => simp [pySet]
  | cons a l ih =>
      show x ∈ insertSorted a (pySet l) ↔ _
      rw [mem_insertSorted, ih]
      simp [List.mem_cons]

theorem nodup_pySet (l : List ℤ) : (pySet l).Nodup :=
  (sorted_pySet l).nodup

theorem length_pySet (l : List ℤ) (h : l.Nodup) : (pySet l).length = l.length := by
  induction l with
  | nil => simp [pySet]
  | cons a l ih =>
      rw [List.nodup_cons] at h
      have ha : a ∉ pySet l := fun hc => h.1 ((mem_pySet a l).mp hc)
      show (insertSorted a (pySet l)).length = _
      rw [length_insertSorted a (pySet l) (sorted_pySet l), if_neg ha, ih h.2]
      simp

theorem mem_setDiff (x : ℤ) (l r : List ℤ) : x ∈ setDiff l r ↔ x ∈ l ∧ x ∉ r := by
  simp [setDiff]

theorem nodup_setDiff (l r : List ℤ) (h : l.Nodup) : (setDiff l r).Nodup :=
  h.filter _

theorem mem_intRangeZ (k : ℤ) (n : ℕ) : k ∈ intRangeZ n ↔ 0 ≤ k ∧ k < n := by
  simp only [intRangeZ, List.mem_map, List.mem_range]
  constructor
  · rintro ⟨j, hj, rfl⟩
    constructor
    · exact Int.natCast_nonneg j
    · exact_mod_cast hj
  · intro hk
    exact ⟨k.toNat, by omega, by omega⟩

theorem nodup_intRangeZ (n : ℕ) : (intRangeZ n).Nodup := by
  refine List.Nodup.map ?_ (List.nodup_range n)
  intro a b h
  have hab : (a : ℤ) = b := h
  exact_mod_cast hab

theorem length_intRangeZ (n : ℕ) : (intRangeZ n).length = n := by
  rw [intRangeZ, List.length_map, List.length_range]

theorem length_setDiff (l r : List ℤ) (hl : l.Nodup) (hr : r.Nodup) (hsub : ∀ x ∈ r, x ∈ l) :
    (setDiff l r).length = l.length - r.length := by
  have hsplit : ∀ L : List ℤ,
      (setDiff L r).length + (L.filter (fun x => decide (x ∈ r))).length = L.length := by
    intro L
    unfold setDiff
    induction L with
    | nil => rfl
    | cons a L ihl =>
        rw [List.filter_cons, List.filter_cons]
        by_cases h : a ∈ r
        · rw [if_neg (by simp [h]), if_pos (by simp [h])]
          simp only [List.length_cons]
          omega
        · rw [if_pos (by simp [h]), if_neg (by simp [h])]
          simp only [List.length_cons]
          omega
  have hperm : (l.filter (fun x => decide (x ∈ r))).Perm r := by
    rw [List.perm_ext_iff_of_nodup (hl.filter _) hr]
    intro x
    simp only [List.mem_filter, decide_eq_true_eq]
    exact ⟨fun h => h.2, fun h => ⟨hsub x h, h⟩⟩
  have h1 := hsplit l
  have h2 := hperm.length_eq
  omega

end SetModelLemmas

/-- C4: with neither `mask_axis` nor `non_mask_axis` specified, resolution
succeeds iff the array rank equals the mask rank, in which case the mask
axes are all of `{0..r-1}` (here `intRangeZ r`) and the non-mask axes are
empty; otherwise a `ValueError` (the spec's ShapeError) is raised. -/
theorem processMaskAxis_no_axis_spec (r m : ℕ) :
    (r = m → processMaskAxis r m none none = .ok (intRangeZ r, [])) ∧
    (r ≠ m → processMaskAxis r m none none = .error .valueError) ∧
    (∀ k : ℤ, k ∈ intRangeZ r ↔ 0 ≤ k ∧ k < r) := by
  refine ⟨fun h => ?_, fun h => ?_, fun k => mem_intRangeZ k r⟩
  · simp [processMaskAxis, h]
  · simp [processMaskAxis, h]

theorem processMaskAxis_no_axis_spec_witness :
    processMaskAxis 2 2 none none = .ok (intRangeZ 2, []) ∧
    processMaskAxis 2 3 none none = .error .valueError :=
  ⟨(processMaskAxis_no_axis_spec 2 2).1 rfl,
   (processMaskAxis_no_axis_spec 2 3).2.1 (by decide)⟩

/-- Entries of an in-range axis argument normalize into `[0, r)`. -/
theorem pyNorm_range (r : ℕ) (d : ℤ) (h1 : -(r : ℤ) ≤ d) (h2 : d < (r : ℤ)) :
    0 ≤ pyNorm r d ∧ pyNorm r d < r := by
  unfold pyNorm
  split <;> omega

/-- Elements of the normalized set built from an in-range axis argument lie
in `[0, r)`. -/
theorem mem_pySet_norm_range (r : ℕ) (l : List ℤ)
    (hin : ∀ d ∈ l, -(r : ℤ) ≤ d ∧ d < (r : ℤ)) (x : ℤ)
    (hx : x ∈ pySet (l.map (pyNorm r))) : 0 ≤ x ∧ x < r := by
  rw [mem_pySet, List.mem_map] at hx
  rcases hx with ⟨d, hd, rfl⟩
  exact pyNorm_range r d (hin d hd).1 (hin d hd).2

theorem axisEntriesInRange_spec (r : ℕ) (ax : PyAxis)
    (h : axisEntriesInRange r (some ax) = true) :
    ∀ d ∈ toIntList ax, -(r : ℤ) ≤ d ∧ d < (r : ℤ) := by
  intro d hd
  unfold axisEntriesInRange at h
  rw [List.all_eq_true] at h
  have := h d hd
  simp only [Bool.and_eq_true, decide_eq_true_eq] at this
  exact this

/-- C1 counterexample: the call `process_mask_axis(3, 2, mask_axis=[0, -3])`
is legal (raises nothing) — both entries are in range and `len(mask_axis)`
is 2, the mask's rank — yet `-3` normalizes to axis `0`, so the returned
`mask_axis` collapses to a single axis and its length is 1, not 2. -/
theorem processMaskAxis_partition_cex :
    processMaskAxis 3 2 (some (.seq [0, -3])) none = .ok ([0], [1, 2]) ∧
    ([0] : List ℤ).length ≠ 2 :=
  ⟨by decide, by decide⟩

/-- C1 (amended): for every successful call to `process_mask_axis` whose
supplied axis entries are in range, the returned pair partitions
`{0..a_ndim-1}`: the union is exactly that interval and the two lists are
disjoint.  `len(mask_axis) = mask_ndim` holds additionally whenever the
supplied entries normalize to pairwise distinct axes (it fails otherwise,
see the counterexample). -/
theorem processMaskAxis_partition (r m : ℕ) (ma nma : Option PyAxis) (S N : List ℤ)
    (h : processMaskAxis r m ma nma = .ok (S, N))
    (hma : axisEntriesInRange r ma = true) (hnma : axisEntriesInRange r nma = true) :
    (∀ k : ℤ, (k ∈ S ∨ k ∈ N) ↔ 0 ≤ k ∧ k < r) ∧
    (∀ k : ℤ, k ∈ S → k ∉ N) ∧
    (normNodupB r ma = true → normNodupB r nma = true → S.length = m) := by
  match ma, nma with
  | none, none =>
      rw [processMaskAxis] at h
      by_cases hr : r ≠ m
      · rw [if_pos hr] at h
        exact absurd h (by simp)
      · rw [if_neg hr] at h
        rw [not_not] at hr
        injection h with h
        injection h with hS hN
        subst hS; subst hN
        refine ⟨fun k => ?_, fun k hk => by simp, fun _ _ => ?_⟩
        · simp only [List.not_mem_nil, or_false]
          exact mem_intRangeZ k r
        · rw [length_intRangeZ, hr]
  | some ax, none =>
      rw [processMaskAxis] at h
      by_cases hl : (toIntList ax).length ≠ m
      · rw [if_pos hl] at h
        exact absurd h (by simp)
      · rw [if_neg hl] at h
        rw [not_not] at hl
        injection h with h
        injection h with hS hN
        subst hS; subst hN
        have hin := axisEntriesInRange_spec r ax hma
        have hrange := mem_pySet_norm_range r (toIntList ax) hin
        refine ⟨fun k => ?_, fun k hk hk' => ?_, fun hnod _ => ?_⟩
        · constructor
          · rintro (hk | hk)
            · have := hrange k hk
              omega
            · rw [mem_setDiff, mem_intRangeZ] at hk
              exact hk.1
          · intro hk
            by_cases hk' : k ∈ pySet ((toIntList ax).map (pyNorm r))
            · exact Or.inl hk'
            · refine Or.inr ?_
              rw [mem_setDiff, mem_intRangeZ]
              exact ⟨hk, hk'⟩
        · rw [mem_setDiff] at hk'
          exact hk'.2 hk
        · have hnod' : ((toIntList ax).map (pyNorm r)).Nodup := by
            unfold normNodupB at hnod
            exact of_decide_eq_true hnod
          rw [length_pySet _ hnod', List.length_map]
          exact hl
  | none, some ax =>
      rw [processMaskAxis] at h
      by_cases hl : ((toIntList ax).length : ℤ) ≠ (r : ℤ) - (m : ℤ)
      · rw [if_pos hl] at h
        exact absurd h (by simp)
      · rw [if_neg hl] at h
        rw [not_not] at hl
        injection h with h
        injection h with hS hN
        subst hS; subst hN
        have hin := axisEntriesInRange_spec r ax hnma
        have hrange := mem_pySet_norm_range r (toIntList ax) hin
        refine ⟨fun k => ?_, fun k hk hk' => ?_, fun _ hnod => ?_⟩
        · constructor
          · rintro (hk | hk)
            · rw [mem_setDiff, mem_intRangeZ] at hk
              exact hk.1
            · have := hrange k hk
              omega
          · intro hk
            by_cases hk' : k ∈ pySet ((toIntList ax).map (pyNorm r))
            · exact Or.inr hk'
            · refine Or.inl ?_
              rw [mem_setDiff, mem_intRangeZ]
              exact ⟨hk, hk'⟩
        · rw [mem_setDiff] at hk
          exact hk.2 hk'
        · have hnod' : ((toIntList ax).map (pyNorm r)).Nodup := by
            unfold normNodupB at hnod
            exact of_decide_eq_true hnod
          have hNlen : (pySet ((toIntList ax).map (pyNorm r))).length =
              (toIntList ax).length := by
            rw [length_pySet _ hnod', List.length_map]
          have hsub : ∀ x ∈ pySet ((toIntList ax).map (pyNorm r)), x ∈ intRangeZ r := by
            intro x hx
            rw [mem_intRangeZ]
            exact hrange x hx
          rw [length_setDiff _ _ (nodup_intRangeZ r) (nodup_pySet _) hsub,
            length_intRangeZ, hNlen]
          omega
  | some _, some _ =>
      rw [processMaskAxis] at h
      exact absurd h (by simp)

theorem processMaskAxis_partition_witness :
    (∀ k : ℤ, (k ∈ ([1] : List ℤ) ∨ k ∈ ([0] : List ℤ)) ↔ 0 ≤ k ∧ k < (2 : ℕ)) ∧
    (∀ k : ℤ, k ∈ ([1] : List ℤ) → k ∉ ([0] : List ℤ)) ∧
    (normNodupB 2 (some (.int 1)) = true → normNodupB 2 none = true →
      ([1] : List ℤ).length = 1) :=
  processMaskAxis_partition 2 1 (some (.int 1)) none [1] [0] (by decide) (by decide) (by decide)

/-- An n-dimensional array: a shape and a flat row-major data buffer.
(`data.length = shape.prod` for well-formed arrays; the functions below
never rely on it except where stated.) -/
structure NDArray (α : Type) where
  shape : List ℕ
  data : List α
deriving DecidableEq, Repr

/-- Rank of an array (`a.ndim`). -/
def NDArray.ndim {α : Type} (a : NDArray α) : ℕ := a.shape.length

/-- Total element count of an array (`a.size`). -/
def NDArray.size {α : Type} (a : NDArray α) : ℕ := a.shape.prod

/-- Python tuple indexing `s[d]`: a negative index wraps once by the
length (the same normalization as `pyNorm`); out-of-range indices raise
`IndexError`. -/
def tupleGet (s : List ℕ) (d : ℤ) : Except PyError ℕ :=
  if 0 ≤ pyNorm s.length d ∧ pyNorm s.length d < (s.length : ℤ) then
    .ok (s.getD (pyNorm s.length d).toNat 0)
  else .error .indexError

/-- Trailing-dimension broadcasting on reversed shapes: aligned sizes must
be equal or one of them 1. -/
def bcastRev : List ℕ → List ℕ → Option (List ℕ)
  | [], ys => some ys
  | x :: xs, [] => some (x :: xs)
  | x :: xs, y :: ys =>
      match bcastRev xs ys with
      | none => none
      | some rest =>
          if x = y then some (x :: rest)
          else if x = 1 then some (y :: rest)
          else if y = 1 then some (x :: rest)
          else none

/-- `np.broadcast_shapes(s1, s2)`: `none` models the raised `ValueError`. -/
def broadcastShapes (s1 s2 : List ℕ) : Option (List ℕ) :=
  match bcastRev s1.reverse s2.reverse with
  | none => none
  | some r => some r.reverse

/-- `tuple([a_shape[d] for d in S])`, with Python indexing errors
propagating from the first bad entry. -/
def targetShapeE (aShape : List ℕ) : List ℤ → Except PyError (List ℕ)
  | [] => .ok []
  | d :: ds =>
      match tupleGet aShape d, targetShapeE aShape ds with
      | .error e, _ => .error e
      | .ok _, .error e => .error e
      | .ok x, .ok xs => .ok (x :: xs)

/-- The shared maskability check of `is_maskable` / `process_mask`:
build the target shape (IndexError propagates), then
`np.broadcast_shapes(mask_shape, target) == target` with the
broadcasting `ValueError` caught as `False`. -/
def maskableB (aShape mShape : List ℕ) (S : List ℤ) : Except PyError Bool :=
  match targetShapeE aShape S with
  | .error e => .error e
  | .ok t =>
      match broadcastShapes mShape t with
      | some b => .ok (decide (b = t))
      | none => .ok false

/-- Shallow embedding of `is_maskable(a, mask, mask_axis, non_mask_axis)`. -/
def isMaskable {α : Type} (a : NDArray α) (mask : NDArray Bool)
    (maskAxis nonMaskAxis : Option PyAxis) : Except PyError Bool :=
  match processMaskAxis a.ndim mask.ndim maskAxis nonMaskAxis with
  | .error e => .error e
  | .ok (S, _) => maskableB a.shape mask.shape S

/-- Builds the `np.expand_dims` output shape: walk output positions
`p, p+1, ...` for `k` steps, emitting `1` at inserted positions and the
next remaining input dimension elsewhere. -/
def buildShape (norm : List ℤ) : ℕ → ℕ → List ℕ → List ℕ
  | 0, _, _ => []
  | k + 1, p, rem =>
      if (p : ℤ) ∈ norm then 1 :: buildShape norm k (p + 1) rem
      else rem.headD 1 :: buildShape norm k (p + 1) rem.tail

/-- Normalization of `expand_dims` axes: each negative axis is shifted by
the output rank `mnd + len(axes)`. -/
def edNorm (mnd : ℕ) (axes : List ℤ) : List ℤ :=
  axes.map (fun d => if 0 ≤ d then d else d + ((mnd + axes.length : ℕ) : ℤ))

/-- `jnp.expand_dims(m, axis=axes)`: normalizes each axis against the
output rank, requires them distinct and in range (numpy's `AxisError`
subclasses `ValueError`), and inserts singleton dimensions there. -/
def expandDims {α : Type} (m : NDArray α) (axes : List ℤ) : Except PyError (NDArray α) :=
  if decide (edNorm m.ndim axes).Nodup &&
     (edNorm m.ndim axes).all
       (fun d => decide (0 ≤ d) && decide (d < ((m.ndim + axes.length : ℕ) : ℤ))) then
    .ok ⟨buildShape (edNorm m.ndim axes) (m.ndim + axes.length) 0 m.shape, m.data⟩
  else .error .valueError

/-- The tail of `process_mask` after axis resolution: the maskability
check (raising `ValueError` when not maskable) then `expand_dims`. -/
def processMaskCore {α : Type} (a : NDArray α) (mask : NDArray Bool) (S N : List ℤ) :
    Except PyError (NDArray Bool) :=
  match maskableB a.shape mask.shape S with
  | .error e => .error e
  | .ok b => if b then expandDims mask N else .error .valueError

/-- Shallow embedding of `process_mask(a, mask, mask_axis, non_mask_axis)`. -/
def processMask {α : Type} (a : NDArray α) (mask : NDArray Bool)
    (maskAxis nonMaskAxis : Option PyAxis) : Except PyError (NDArray Bool) :=
  match processMaskAxis a.ndim mask.ndim maskAxis nonMaskAxis with
  | .error e => .error e
  | .ok (S, N) => processMaskCore a mask S N

section UnfoldingLemmas

theorem processMask_eq_core {α : Type} (a : NDArray α) (mask : NDArray Bool)
    (ma nma : Option PyAxis) (S N : List ℤ)
    (h : processMaskAxis a.ndim mask.ndim ma nma = .ok (S, N)) :
    processMask a mask ma nma = processMaskCore a mask S N := by
  unfold processMask
  rw [h]

theorem processMask_eq_error {α : Type} (a : NDArray α) (mask : NDArray Bool)
    (ma nma : Option PyAxis) (e : PyError)
    (h : processMaskAxis a.ndim mask.ndim ma nma = .error e) :
    processMask a mask ma nma = .error e := by
  unfold processMask
  rw [h]

theorem isMaskable_eq_core {α : Type} (a : NDArray α) (mask : NDArray Bool)
    (ma nma : Option PyAxis) (S N : List ℤ)
    (h : processMaskAxis a.ndim mask.ndim ma nma = .ok (S, N)) :
    isMaskable a mask ma nma = maskableB a.shape mask.shape S := by
  unfold isMaskable
  rw [h]

theorem isMaskable_eq_error {α : Type} (a : NDArray α) (mask : NDArray Bool)
    (ma nma : Option PyAxis) (e : PyError)
    (h : processMaskAxis a.ndim mask.ndim ma nma = .error e) :
    isMaskable a mask ma nma = .error e := by
  unfold isMaskable
  rw [h]

theorem tupleGet_error (s : List ℕ) (d : ℤ) (e : PyError)
    (h : tupleGet s d = .error e) : e = .indexError := by
  unfold tupleGet at h
  split at h
  · exact Except.noConfusion h
  · injection h with h
    exact h.symm

theorem targetShapeE_error (s : List ℕ) (S : List ℤ) :
    ∀ e : PyError, targetShapeE s S = .error e → e = .indexError := by
  induction S with
  | nil => exact fun e h => Except.noConfusion h
  | cons d ds ih =>
      intro e h
      unfold targetShapeE at h
      cases hg : tupleGet s d with
      | error e' =>
          rw [hg] at h
          injection h with h
          exact h.symm.trans (tupleGet_error s d e' hg)
      | ok x =>
          rw [hg] at h
          cases ht : targetShapeE s ds with
          | error e' =>
              rw [ht] at h
              injection h with h
              exact h.symm.trans (ih e' ht)
          | ok xs =>
              rw [ht] at h
              exact Except.noConfusion h

end UnfoldingLemmas

/-- C2 counterexample: for `a` of shape `(2,2,2)`, `mask` of shape `(1,1)`
and `non_mask_axis=5`, axis resolution succeeds and `is_maskable` returns
`True`, yet `process_mask` raises (`expand_dims` rejects axis 5 for an
output of rank 3).  So the predicate and the action disagree, and
`is_maskable`'s error set is not that of `process_mask_axis`. -/
theorem is_maskable_process_mask_cex :
    isMaskable (⟨[2, 2, 2], List.replicate 8 (0 : ℤ)⟩ : NDArray ℤ)
      ⟨[1, 1], [true]⟩ none (some (.int 5)) = .ok true ∧
    processMask (⟨[2, 2, 2], List.replicate 8 (0 : ℤ)⟩ : NDArray ℤ)
      ⟨[1, 1], [true]⟩ none (some (.int 5)) = .error .valueError ∧
    processMaskAxis 3 2 none (some (.int 5)) = .ok ([0, 1, 2], [5]) :=
  ⟨by decide, by decide, by decide⟩

/-- C2 (amended): (i) whenever `process_mask` succeeds, `is_maskable` is
`True`; (ii) whenever `is_maskable` is `True`, `process_mask` behaves as
`expand_dims` on the resolved non-mask axes — it succeeds unless those
axes are invalid insertion positions; (iii) when `is_maskable` raises,
`process_mask` raises the identical error, and it is either an axis
resolution error or an `IndexError` from indexing the array's shape at an
out-of-range resolved axis; (iv) a mask/target shape mismatch never
raises: it yields `is_maskable = False`. -/
theorem is_maskable_process_mask_agree {α : Type} (a : NDArray α) (mask : NDArray Bool)
    (ma nma : Option PyAxis) :
    ((∃ m, processMask a mask ma nma = .ok m) → isMaskable a mask ma nma = .ok true) ∧
    (∀ S N, processMaskAxis a.ndim mask.ndim ma nma = .ok (S, N) →
      isMaskable a mask ma nma = .ok true →
      processMask a mask ma nma = expandDims mask N) ∧
    (∀ e, isMaskable a mask ma nma = .error e →
      processMask a mask ma nma = .error e ∧
      (processMaskAxis a.ndim mask.ndim ma nma = .error e ∨ e = .indexError)) ∧
    (∀ S N t, processMaskAxis a.ndim mask.ndim ma nma = .ok (S, N) →
      targetShapeE a.shape S = .ok t →
      broadcastShapes mask.shape t ≠ some t →
      isMaskable a mask ma nma = .ok false) := by
  cases hpma : processMaskAxis a.ndim mask.ndim ma nma with
  | error e =>
      refine ⟨?_, ?_, ?_, ?_⟩
      · rintro ⟨m, hm⟩
        rw [processMask_eq_error a mask ma nma e hpma] at hm
        exact Except.noConfusion hm
      · intro S N hSN
        exact Except.noConfusion hSN
      · intro e' he
        rw [isMaskable_eq_error a mask ma nma e hpma] at he
        injection he with he
        subst he
        exact ⟨processMask_eq_error a mask ma nma e hpma, Or.inl rfl⟩
      · intro S N t hSN
        exact Except.noConfusion hSN
  | ok SN =>
      obtain ⟨S, N⟩ := SN
      have hpm := processMask_eq_core a mask ma nma S N hpma
      have him := isMaskable_eq_core a mask ma nma S N hpma
      refine ⟨?_, ?_, ?_, ?_⟩
      · rintro ⟨m, hm⟩
        rw [hpm] at hm
        unfold processMaskCore at hm
        rw [him]
        cases hmb : maskableB a.shape mask.shape S with
        | error e =>
            rw [hmb] at hm
            exact Except.noConfusion hm
        | ok b =>
            rw [hmb] at hm
            cases b with
            | false =>
                have hm2 : (if false = true then expandDims mask N
                    else Except.error PyError.valueError) = Except.ok m := hm
                rw [if_neg (by simp)] at hm2
                exact Except.noConfusion hm2
            | true => rfl
      · intro S' N' hSN htrue
        injection hSN with hSN
        injection hSN with hS hN
        subst hS; subst hN
        rw [him] at htrue
        rw [hpm]
        unfold processMaskCore
        rw [htrue]
        show (if true = true then expandDims mask N else Except.error PyError.valueError) =
          expandDims mask N
        rw [if_pos rfl]
      · intro e he
        rw [him] at he
        refine ⟨?_, Or.inr ?_⟩
        · rw [hpm]
          unfold processMaskCore
          rw [he]
        · unfold maskableB at he
          cases ht : targetShapeE a.shape S with
          | error e' =>
              rw [ht] at he
              injection he with he
              exact he.symm.trans (targetShapeE_error a.shape S e' ht)
          | ok t =>
              rw [ht] at he
              have he2 : (match broadcastShapes mask.shape t with
                  | some b => Except.ok (decide (b = t))
                  | none => Except.ok false) = Except.error e := he
              cases hb : broadcastShapes mask.shape t with
              | none =>
                  rw [hb] at he2
                  exact Except.noConfusion he2
              | some b =>
                  rw [hb] at he2
                  exact Except.noConfusion he2
      · intro S' N' t hSN ht hb
        injection hSN with hSN
        injection hSN with hS hN
        subst hS; subst hN
        rw [him]
        unfold maskableB
        rw [ht]
        show (match broadcastShapes mask.shape t with
            | some b => Except.ok (decide (b = t))
            | none => Except.ok false) = Except.ok false
        cases hbc : broadcastShapes mask.shape t with
        | none => rfl
        | some b =>
            have hbt : b ≠ t := fun hc => hb (by rw [hbc, hc])
            show Except.ok (decide (b = t)) = Except.ok false
            rw [decide_eq_false hbt]

theorem is_maskable_process_mask_agree_witness :
    isMaskable (⟨[2], [0, 0]⟩ : NDArray ℤ) ⟨[2], [true, true]⟩ none none = .ok true :=
  (is_maskable_process_mask_agree (⟨[2], [0, 0]⟩ : NDArray ℤ)
    ⟨[2], [true, true]⟩ none none).1 ⟨⟨[2], [true, true]⟩, by decide⟩

/-- Deletion of the dimensions at positions `A` (position counter `p`). -/
def projOutZAux (A : List ℤ) : ℕ → List ℕ → List ℕ
  | _, [] => []
  | p, x :: xs => if (p : ℤ) ∈ A then projOutZAux A (p + 1) xs else x :: projOutZAux A (p + 1) xs

/-- Deletion of the dimensions of `l` whose positions are listed in `A`. -/
def projOutZ (A : List ℤ) (l : List ℕ) : List ℕ := projOutZAux A 0 l

/-- The integer interval `[a, a+k)` as a list. -/
def intervalZ (a : ℤ) (k : ℕ) : List ℤ := List.map (fun j : ℕ => a + j) (List.range k)

section InsertionLemmas

theorem projOutZAux_cons (A : List ℤ) (p x : ℕ) (xs : List ℕ) :
    projOutZAux A p (x :: xs) =
      if (p : ℤ) ∈ A then projOutZAux A (p + 1) xs else x :: projOutZAux A (p + 1) xs := rfl

theorem buildShape_succ (norm : List ℤ) (k p : ℕ) (rem : List ℕ) :
    buildShape norm (k + 1) p rem =
      if (p : ℤ) ∈ norm then 1 :: buildShape norm k (p + 1) rem
      else rem.headD 1 :: buildShape norm k (p + 1) rem.tail := rfl

theorem mem_intervalZ (x a : ℤ) (k : ℕ) : x ∈ intervalZ a k ↔ a ≤ x ∧ x < a + k := by
  simp only [intervalZ, List.mem_map, List.mem_range]
  constructor
  · rintro ⟨j, hj, rfl⟩
    omega
  · intro hx
    exact ⟨(x - a).toNat, by omega, by omega⟩

theorem length_intervalZ (a : ℤ) (k : ℕ) : (intervalZ a k).length = k := by
  rw [intervalZ, List.length_map, List.length_range]

theorem nodup_intervalZ (a : ℤ) (k : ℕ) : (intervalZ a k).Nodup := by
  refine List.Nodup.map ?_ (List.nodup_range k)
  intro x y h
  have hxy : a + (x : ℤ) = a + (y : ℤ) := h
  omega

theorem length_le_of_bounded (L : List ℤ) (a : ℤ) (k : ℕ) (hnd : L.Nodup)
    (hb : ∀ d ∈ L, a ≤ d ∧ d < a + k) : L.length ≤ k := by
  have hsub : L ⊆ intervalZ a k := fun x hx => (mem_intervalZ x a k).mpr (hb x hx)
  have hle := (List.subperm_of_subset hnd hsub).length_le
  rwa [length_intervalZ] at hle

theorem filter_ge_split (L : List ℤ) (p : ℤ) :
    (L.filter (fun d => decide (p ≤ d))).length =
    (L.filter (fun d => decide (d = p))).length +
    (L.filter (fun d => decide (p + 1 ≤ d))).length := by
  induction L with
  | nil => rfl
  | cons a L ih =>
      rw [List.filter_cons, List.filter_cons, List.filter_cons]
      by_cases h1 : p ≤ a
      · by_cases h2 : a = p
        · rw [if_pos (decide_eq_true h1), if_pos (decide_eq_true h2),
            if_neg (fun hc => by have := of_decide_eq_true hc; omega)]
          simp only [List.length_cons]
          omega
        · rw [if_pos (decide_eq_true h1), if_neg (fun hc => h2 (of_decide_eq_true hc)),
            if_pos (decide_eq_true (by omega))]
          simp only [List.length_cons]
          omega
      · rw [if_neg (fun hc => h1 (of_decide_eq_true hc)),
          if_neg (fun hc => by have := of_decide_eq_true hc; omega),
          if_neg (fun hc => by have := of_decide_eq_true hc; omega)]
        omega

theorem filter_eq_nil_of_not_mem (L : List ℤ) (p : ℤ) (h : p ∉ L) :
    L.filter (fun d => decide (d = p)) = [] := by
  induction L with
  | nil => rfl
  | cons a L ih =>
      rw [List.mem_cons, not_or] at h
      rw [List.filter_cons, if_neg (fun hc => h.1 (of_decide_eq_true hc).symm)]
      exact ih h.2

theorem filter_eq_singleton (L : List ℤ) (p : ℤ) (hnd : L.Nodup) (h : p ∈ L) :
    (L.filter (fun d => decide (d = p))).length = 1 := by
  induction L with
  | nil => exact absurd h (List.not_mem_nil p)
  | cons a L ih =>
      rw [List.nodup_cons] at hnd
      rw [List.filter_cons]
      by_cases ha : a = p
      · subst ha
        rw [if_pos (decide_eq_true rfl), List.length_cons,
          filter_eq_nil_of_not_mem L a hnd.1]
        rfl
      · rw [if_neg (fun hc => ha (of_decide_eq_true hc))]
        rw [List.mem_cons] at h
        rcases h with h | h
        · exact absurd h.symm ha
        · exact ih hnd.2 h

theorem length_buildShape (norm : List ℤ) : ∀ (k p : ℕ) (rem : List ℕ),
    (buildShape norm k p rem).length = k := by
  intro k
  induction k with
  | zero => intro p rem; rfl
  | succ k ih =>
      intro p rem
      rw [buildShape_succ]
      by_cases h : (p : ℤ) ∈ norm
      · rw [if_pos h, List.length_cons, ih]
      · rw [if_neg h, List.length_cons, ih]

theorem buildShape_mem_one (norm : List ℤ) : ∀ (k p q : ℕ) (rem : List ℕ),
    q < k → ((p + q : ℕ) : ℤ) ∈ norm → (buildShape norm k p rem).getD q 0 = 1 := by
  intro k
  induction k with
  | zero => intro p q rem hq _; exact absurd hq (by omega)
  | succ k ih =>
      intro p q rem hq hmem
      rw [buildShape_succ]
      cases q with
      | zero =>
          have hp : (p : ℤ) ∈ norm := by simpa using hmem
          rw [if_pos hp, List.getD_cons_zero]
      | succ q =>
          have harith : (((p + 1) + q : ℕ) : ℤ) = ((p + (q + 1) : ℕ) : ℤ) := by
            push_cast
            ring
          by_cases h : (p : ℤ) ∈ norm
          · rw [if_pos h, List.getD_cons_succ]
            exact ih (p + 1) q rem (by omega) (by rw [harith]; exact hmem)
          · rw [if_neg h, List.getD_cons_succ]
            exact ih (p + 1) q rem.tail (by omega) (by rw [harith]; exact hmem)

theorem projOutZAux_buildShape (norm : List ℤ) (hnd : norm.Nodup) :
    ∀ (k p : ℕ) (rem : List ℕ),
    (∀ d ∈ norm, (p : ℤ) ≤ d → d < (p : ℤ) + k) →
    rem.length + (norm.filter (fun d => decide ((p : ℤ) ≤ d))).length = k →
    projOutZAux norm p (buildShape norm k p rem) = rem := by
  intro k
  induction k with
  | zero =>
      intro p rem _ hc
      have hlen : rem.length = 0 := by omega
      rw [List.length_eq_zero] at hlen
      subst hlen
      rfl
  | succ k ih =>
      intro p rem hb hc
      have hcast : (((p + 1 : ℕ)) : ℤ) = (p : ℤ) + 1 := by push_cast; ring
      rw [buildShape_succ]
      by_cases h : (p : ℤ) ∈ norm
      · rw [if_pos h, projOutZAux_cons, if_pos h]
        have hcount := filter_ge_split norm (p : ℤ)
        have hone := filter_eq_singleton norm (p : ℤ) hnd h
        apply ih (p + 1) rem
        · intro d hd hpd
          have hlt := hb d hd (by omega)
          omega
        · simp only [hcast]
          omega
      · rw [if_neg h]
        have hflen : (norm.filter (fun d => decide ((p : ℤ) ≤ d))).length ≤ k := by
          apply length_le_of_bounded _ ((p : ℤ) + 1) k (hnd.filter _)
          intro d hd
          rw [List.mem_filter] at hd
          have h1 := of_decide_eq_true hd.2
          have h2 := hb d hd.1 h1
          have hne : d ≠ (p : ℤ) := fun hcne => h (hcne ▸ hd.1)
          omega
        obtain ⟨x, rest, rfl⟩ : ∃ x rest, rem = x :: rest := by
          cases rem with
          | nil =>
              exfalso
              simp only [List.length_nil] at hc
              omega
          | cons x rest => exact ⟨x, rest, rfl⟩
        show projOutZAux norm p (x :: buildShape norm k (p + 1) rest) = x :: rest
        rw [projOutZAux_cons, if_neg h]
        have hcount := filter_ge_split norm (p : ℤ)
        have hzero : (norm.filter (fun d => decide (d = (p : ℤ)))).length = 0 := by
          rw [filter_eq_nil_of_not_mem norm (p : ℤ) h]
          rfl
        have hrec := ih (p + 1) rest
          (fun d hd hpd => by
            have hlt := hb d hd (by omega)
            omega)
          (by
            simp only [hcast]
            simp only [List.length_cons] at hc
            omega)
        rw [hrec]
end InsertionLemmas

/-- Structural facts about a successful axis resolution with in-range,
collision-free entries: the non-mask axes are distinct and in `[0, r)`,
the mask-axis count is the mask's rank, and the two counts sum to `r`. -/
theorem processMaskAxis_ok_facts (r m : ℕ) (ma nma : Option PyAxis) (S N : List ℤ)
    (h : processMaskAxis r m ma nma = .ok (S, N))
    (hma : axisEntriesInRange r ma = true) (hnma : axisEntriesInRange r nma = true)
    (hn1 : normNodupB r ma = true) (hn2 : normNodupB r nma = true) :
    N.Nodup ∧ (∀ x ∈ N, 0 ≤ x ∧ x < (r : ℤ)) ∧ S.length = m ∧ S.length + N.length = r := by
  match ma, nma with
  | none, none =>
      rw [processMaskAxis] at h
      by_cases hr : r ≠ m
      · rw [if_pos hr] at h
        exact absurd h (by simp)
      · rw [if_neg hr] at h
        rw [not_not] at hr
        injection h with h
        injection h with hS hN
        subst hS; subst hN
        refine ⟨List.nodup_nil, by simp, ?_, ?_⟩
        · rw [length_intRangeZ]
          exact hr
        · rw [length_intRangeZ]
          simp
  | some ax, none =>
      rw [processMaskAxis] at h
      by_cases hl : (toIntList ax).length ≠ m
      · rw [if_pos hl] at h
        exact absurd h (by simp)
      · rw [if_neg hl] at h
        rw [not_not] at hl
        injection h with h
        injection h with hS hN
        subst hS; subst hN
        have hin := axisEntriesInRange_spec r ax hma
        have hrange := mem_pySet_norm_range r (toIntList ax) hin
        have hnod : ((toIntList ax).map (pyNorm r)).Nodup := by
          unfold normNodupB at hn1
          exact of_decide_eq_true hn1
        have hSlen : (pySet ((toIntList ax).map (pyNorm r))).length = m := by
          rw [length_pySet _ hnod, List.length_map]
          exact hl
        have hSsub : ∀ x ∈ pySet ((toIntList ax).map (pyNorm r)), x ∈ intRangeZ r := by
          intro x hx
          rw [mem_intRangeZ]
          exact hrange x hx
        refine ⟨nodup_setDiff _ _ (nodup_intRangeZ r), ?_, hSlen, ?_⟩
        · intro x hx
          rw [mem_setDiff, mem_intRangeZ] at hx
          exact hx.1
        · have hSle : (pySet ((toIntList ax).map (pyNorm r))).length ≤ r := by
            apply length_le_of_bounded _ 0 r (nodup_pySet _)
            intro d hd
            have := hrange d hd
            omega
          rw [hSlen, length_setDiff _ _ (nodup_intRangeZ r) (nodup_pySet _) hSsub,
            length_intRangeZ, hSlen]
          omega
  | none, some ax =>
      rw [processMaskAxis] at h
      by_cases hl : ((toIntList ax).length : ℤ) ≠ (r : ℤ) - (m : ℤ)
      · rw [if_pos hl] at h
        exact absurd h (by simp)
      · rw [if_neg hl] at h
        rw [not_not] at hl
        injection h with h
        injection h with hS hN
        subst hS; subst hN
        have hin := axisEntriesInRange_spec r ax hnma
        have hrange := mem_pySet_norm_range r (toIntList ax) hin
        have hnod : ((toIntList ax).map (pyNorm r)).Nodup := by
          unfold normNodupB at hn2
          exact of_decide_eq_true hn2
        have hNlen : (pySet ((toIntList ax).map (pyNorm r))).length = (toIntList ax).length := by
          rw [length_pySet _ hnod, List.length_map]
        have hNsub : ∀ x ∈ pySet ((toIntList ax).map (pyNorm r)), x ∈ intRangeZ r := by
          intro x hx
          rw [mem_intRangeZ]
          exact hrange x hx
        have hNle : (pySet ((toIntList ax).map (pyNorm r))).length ≤ r := by
          apply length_le_of_bounded _ 0 r (nodup_pySet _)
          intro d hd
          have := hrange d hd
          omega
        have hSlen : (setDiff (intRangeZ r) (pySet ((toIntList ax).map (pyNorm r)))).length =
            r - (pySet ((toIntList ax).map (pyNorm r))).length := by
          rw [length_setDiff _ _ (nodup_intRangeZ r) (nodup_pySet _) hNsub, length_intRangeZ]
        refine ⟨nodup_pySet _, fun x hx => hrange x hx, ?_, ?_⟩
        · rw [hSlen]
          omega
        · rw [hSlen]
          omega
  | some _, some _ =>
      rw [processMaskAxis] at h
      exact absurd h (by simp)

/-- C3 counterexample: for `a` of shape `(2,2,3)`, `mask` of shape `(3,)`
and `non_mask_axis=[0, -3]` (a legal call: two in-range entries, matching
the required length `3-1`), `-3` normalizes to axis `0`, the resolved
non-mask set collapses to `{0}`, and `process_mask` SUCCEEDS returning an
aligned mask of shape `(1,3)` — rank 2, not the array's rank 3. -/
theorem process_mask_shape_cex :
    processMask (⟨[2, 2, 3], List.replicate 12 (0 : ℤ)⟩ : NDArray ℤ)
      ⟨[3], [true, true, true]⟩ none (some (.seq [0, -3])) =
      .ok ⟨[1, 3], [true, true, true]⟩ ∧
    (⟨[1, 3], [true, true, true]⟩ : NDArray Bool).ndim ≠
      (⟨[2, 2, 3], List.replicate 12 (0 : ℤ)⟩ : NDArray ℤ).ndim :=
  ⟨by decide, by decide⟩

/-- C3 (amended): assume the axis entries are in range and normalize to
distinct axes (the counterexample shows the rank statement fails
otherwise).  Then `process_mask` succeeds iff the mask shape and the
target shape — the array shape restricted to the resolved mask axes, in
resolved order — broadcast with result exactly the target; on success the
returned mask keeps the original mask data, has the array's rank, carries
a singleton dimension at every resolved non-mask position, and deleting
those positions recovers the mask's shape. -/
theorem process_mask_broadcast_spec {α : Type} (a : NDArray α) (mask : NDArray Bool)
    (ma nma : Option PyAxis) (S N : List ℤ) (t : List ℕ)
    (hpma : processMaskAxis a.ndim mask.ndim ma nma = .ok (S, N))
    (hma : axisEntriesInRange a.ndim ma = true)
    (hnma : axisEntriesInRange a.ndim nma = true)
    (hn1 : normNodupB a.ndim ma = true)
    (hn2 : normNodupB a.ndim nma = true)
    (ht : targetShapeE a.shape S = .ok t) :
    ((∃ mk, processMask a mask ma nma = .ok mk) ↔
      broadcastShapes mask.shape t = some t) ∧
    (∀ mk, processMask a mask ma nma = .ok mk →
      mk.data = mask.data ∧ mk.ndim = a.ndim ∧
      (∀ p : ℕ, (p : ℤ) ∈ N → mk.shape.getD p 0 = 1) ∧
      projOutZ N mk.shape = mask.shape) := by
  obtain ⟨hNnd, hNrange, hSlen, hsum⟩ :=
    processMaskAxis_ok_facts a.ndim mask.ndim ma nma S N hpma hma hnma hn1 hn2
  have houtN : mask.ndim + N.length = a.ndim := by omega
  have hcast : ((mask.ndim + N.length : ℕ) : ℤ) = (a.ndim : ℤ) := by exact_mod_cast houtN
  have hnormN : edNorm mask.ndim N = N := by
    unfold edNorm
    have hcongr : N.map (fun d => if 0 ≤ d then d
        else d + ((mask.ndim + N.length : ℕ) : ℤ)) = N.map id :=
      List.map_congr_left (fun d hd => by rw [if_pos (hNrange d hd).1]; rfl)
    rw [hcongr, List.map_id]
  have hvalid : (decide (edNorm mask.ndim N).Nodup &&
      (edNorm mask.ndim N).all
        (fun d => decide (0 ≤ d) && decide (d < ((mask.ndim + N.length : ℕ) : ℤ)))) = true := by
    rw [hnormN, Bool.and_eq_true]
    refine ⟨decide_eq_true hNnd, List.all_eq_true.mpr ?_⟩
    intro d hd
    rw [Bool.and_eq_true]
    refine ⟨decide_eq_true (hNrange d hd).1, decide_eq_true ?_⟩
    have h2 := (hNrange d hd).2
    omega
  have hed : expandDims mask N =
      .ok ⟨buildShape N (mask.ndim + N.length) 0 mask.shape, mask.data⟩ := by
    unfold expandDims
    rw [if_pos hvalid, hnormN]
  have hmb_true_of : broadcastShapes mask.shape t = some t →
      maskableB a.shape mask.shape S = .ok true := by
    intro hbc
    unfold maskableB
    rw [ht]
    show (match broadcastShapes mask.shape t with
        | some b => Except.ok (decide (b = t))
        | none => Except.ok false) = Except.ok true
    rw [hbc]
    show Except.ok (decide (t = t)) = Except.ok true
    rw [decide_eq_true rfl]
  have hmb_of_true : maskableB a.shape mask.shape S = .ok true →
      broadcastShapes mask.shape t = some t := by
    intro hmb
    unfold maskableB at hmb
    rw [ht] at hmb
    have hmb2 : (match broadcastShapes mask.shape t with
        | some b => Except.ok (decide (b = t))
        | none => Except.ok false) = Except.ok true := hmb
    cases hbc : broadcastShapes mask.shape t with
    | none =>
        rw [hbc] at hmb2
        injection hmb2 with hmb2
        exact absurd hmb2 Bool.false_ne_true
    | some b =>
        rw [hbc] at hmb2
        injection hmb2 with hmb2
        rw [of_decide_eq_true hmb2]
  constructor
  · constructor
    · rintro ⟨mk, hmk⟩
      rw [processMask_eq_core a mask ma nma S N hpma] at hmk
      unfold processMaskCore at hmk
      cases hmbv : maskableB a.shape mask.shape S with
      | error e =>
          rw [hmbv] at hmk
          exact Except.noConfusion hmk
      | ok b =>
          rw [hmbv] at hmk
          cases b with
          | false =>
              have hmk2 : (if false = true then expandDims mask N
                  else Except.error PyError.valueError) = Except.ok mk := hmk
              rw [if_neg (by simp)] at hmk2
              exact Except.noConfusion hmk2
          | true => exact hmb_of_true hmbv
    · intro hbc
      refine ⟨⟨buildShape N (mask.ndim + N.length) 0 mask.shape, mask.data⟩, ?_⟩
      rw [processMask_eq_core a mask ma nma S N hpma]
      unfold processMaskCore
      rw [hmb_true_of hbc]
      show (if true = true then expandDims mask N
          else Except.error PyError.valueError) = _
      rw [if_pos rfl, hed]
  · intro mk hmk
    rw [processMask_eq_core a mask ma nma S N hpma] at hmk
    unfold processMaskCore at hmk
    cases hmbv : maskableB a.shape mask.shape S with
    | error e =>
        rw [hmbv] at hmk
        exact Except.noConfusion hmk
    | ok b =>
        rw [hmbv] at hmk
        cases b with
        | false =>
            have hmk2 : (if false = true then expandDims mask N
                else Except.error PyError.valueError) = Except.ok mk := hmk
            rw [if_neg (by simp)] at hmk2
            exact Except.noConfusion hmk2
        | true =>
            have hmk2 : (if true = true then expandDims mask N
                else Except.error PyError.valueError) = Except.ok mk := hmk
            rw [if_pos rfl, hed] at hmk2
            injection hmk2 with hmk2
            subst hmk2
            refine ⟨rfl, ?_, ?_, ?_⟩
            · show (buildShape N (mask.ndim + N.length) 0 mask.shape).length = a.ndim
              rw [length_buildShape]
              exact houtN
            · intro p hp
              have hplt : p < mask.ndim + N.length := by
                have h2 := (hNrange (p : ℤ) hp).2
                omega
              exact buildShape_mem_one N (mask.ndim + N.length) 0 p mask.shape hplt
                (by simpa using hp)
            · show projOutZ N (buildShape N (mask.ndim + N.length) 0 mask.shape) = mask.shape
              unfold projOutZ
              apply projOutZAux_buildShape N hNnd (mask.ndim + N.length) 0 mask.shape
              · intro d hd _
                have h2 := (hNrange d hd).2
                omega
              · have hfilter : N.filter (fun d => decide (((0 : ℕ) : ℤ) ≤ d)) = N := by
                  rw [List.filter_eq_self]
                  intro d hd
                  exact decide_eq_true (by
                    have h1 := (hNrange d hd).1
                    omega)
                rw [hfilter]
                rfl

theorem process_mask_broadcast_spec_witness :
    processMask (⟨[4, 3], List.replicate 12 (0 : ℤ)⟩ : NDArray ℤ)
      ⟨[3], [true, false, true]⟩ (some (.int 1)) none =
      .ok ⟨[1, 3], [true, false, true]⟩ ∧
    (∀ mk, processMask (⟨[4, 3], List.replicate 12 (0 : ℤ)⟩ : NDArray ℤ)
        ⟨[3], [true, false, true]⟩ (some (.int 1)) none = .ok mk →
      mk.data = [true, false, true] ∧ mk.ndim = 2 ∧
      (∀ p : ℕ, (p : ℤ) ∈ ([0] : List ℤ) → mk.shape.getD p 0 = 1) ∧
      projOutZ [0] mk.shape = [3]) :=
  ⟨by decide,
   (process_mask_broadcast_spec (⟨[4, 3], List.replicate 12 (0 : ℤ)⟩ : NDArray ℤ)
      ⟨[3], [true, false, true]⟩ (some (.int 1)) none [1] [0] [3]
      (by decide) (by decide) (by decide) (by decide) (by decide) (by decide)).2⟩

/-- All multi-indices of a shape, enumerated in row-major (C) order. -/
def allIndices : List ℕ → List (List ℕ)
  | [] => [[]]
  | d :: ds => (List.range d).flatMap (fun i => (allIndices ds).map (fun is => i :: is))

/-- Row-major flat offset of a multi-index. -/
def flatIdx : List ℕ → List ℕ → ℕ
  | _ :: ss, i :: is => i * ss.prod + flatIdx ss is
  | _, _ => 0

/-- Element of an array at a multi-index (default `d` when out of range). -/
def NDArray.getD {α : Type} (a : NDArray α) (idx : List ℕ) (d : α) : α :=
  a.data.getD (flatIdx a.shape idx) d

/-- Broadcast indexing: map an output multi-index to a source index by
aligning from the trailing dimensions and pinning size-1 dimensions to 0. -/
def bIndex (srcShape idx : List ℕ) : List ℕ :=
  List.zipWith (fun sz i => if sz = 1 then 0 else i)
    srcShape (idx.drop (idx.length - srcShape.length))

/-- Deletion of the entries of `l` at positions in `A` (counter `p`). -/
def projOutN (A : List ℕ) : ℕ → List ℕ → List ℕ
  | _, [] => []
  | p, x :: xs => if p ∈ A then projOutN A (p + 1) xs else x :: projOutN A (p + 1) xs

/-- Replacement of the entries of `l` at positions in `A` by `1`. -/
def keepOnes (A : List ℕ) : ℕ → List ℕ → List ℕ
  | _, [] => []
  | p, x :: xs => (if p ∈ A then 1 else x) :: keepOnes A (p + 1) xs

/-- Shape of a reduction over the axes `A` (`keepdims` keeps singletons). -/
def outShape (s : List ℕ) (A : List ℕ) (kd : Bool) : List ℕ :=
  if kd then keepOnes A 0 s else projOutN A 0 s

/-- Resolved reduction axes of `jnp.sum`-style `axis` arguments. -/
def redAxes (r : ℕ) (axis : Option PyAxis) : List ℕ :=
  match axis with
  | none => List.range r
  | some ax => (toIntList ax).map (fun d => (pyNorm r d).toNat)

/-- The engine's reduce-with-`where` primitive: every output cell folds
`op` from `z` over the input elements of its slice whose predicate holds. -/
def reduceCells {α β : Type} (op : β → α → β) (z : β) (dflt : α) (a : NDArray α)
    (A : List ℕ) (kd : Bool) (pred : List ℕ → Bool) : NDArray β :=
  ⟨outShape a.shape A kd,
   (allIndices (outShape a.shape A kd)).map (fun j =>
     ((allIndices a.shape).filter
        (fun i => decide (projOutN A 0 i = (if kd then projOutN A 0 j else j)))).foldl
       (fun acc i => if pred i then op acc (a.getD i dflt) else acc) z)⟩

/-- The aligned-mask predicate: the processed mask, broadcast against the
array, read at an input multi-index. -/
def whereAt (m : NDArray Bool) (i : List ℕ) : Bool := m.getD (bIndex m.shape i) false

/-- Shallow embedding of `masked_sum(a, mask, axis, mask_axis,
non_mask_axis, keepdims)`: `jnp.sum(a, axis, keepdims, where=mask)` after
`process_mask`. -/
def maskedSum {α : Type} [Add α] [Zero α] (a : NDArray α) (mask : NDArray Bool)
    (axis maskAxis nonMaskAxis : Option PyAxis) (keepdims : Bool) :
    Except PyError (NDArray α) :=
  match processMask a mask maskAxis nonMaskAxis with
  | .error e => .error e
  | .ok m =>
      .ok (reduceCells (fun acc x => acc + x) 0 0 a (redAxes a.ndim axis) keepdims (whereAt m))

/-- Plain `jnp.sum(a, axis, keepdims)` (no `where`). -/
def jnpSum {α : Type} [Add α] [Zero α] (a : NDArray α) (axis : Option PyAxis)
    (keepdims : Bool) : NDArray α :=
  reduceCells (fun acc x => acc + x) 0 0 a (redAxes a.ndim axis) keepdims (fun _ => true)

/-- Shallow embedding of `masked_min`: `jnp.min(a, axis, keepdims,
where=mask, initial=jnp.inf)` after `process_mask` — the fold starts at
`⊤` (+infinity), which excluded elements leave untouched. -/
def maskedMin {α : Type} [Min α] [Top α] [Zero α] (a : NDArray α) (mask : NDArray Bool)
    (axis maskAxis nonMaskAxis : Option PyAxis) (keepdims : Bool) :
    Except PyError (NDArray α) :=
  match processMask a mask maskAxis nonMaskAxis with
  | .error e => .error e
  | .ok m =>
      .ok (reduceCells (fun acc x => min acc x) ⊤ 0 a (redAxes a.ndim axis) keepdims (whereAt m))

/-- Shallow embedding of `masked_max`: `jnp.max(a, axis, keepdims,
where=mask, initial=-jnp.inf)` after `process_mask` — the fold starts at
`⊥` (-infinity). -/
def maskedMax {α : Type} [Max α] [Bot α] [Zero α] (a : NDArray α) (mask : NDArray Bool)
    (axis maskAxis nonMaskAxis : Option PyAxis) (keepdims : Bool) :
    Except PyError (NDArray α) :=
  match processMask a mask maskAxis nonMaskAxis with
  | .error e => .error e
  | .ok m =>
      .ok (reduceCells (fun acc x => max acc x) ⊥ 0 a (redAxes a.ndim axis) keepdims (whereAt m))

section IndexingLemmas

theorem length_allIndices (s : List ℕ) : (allIndices s).length = s.prod := by
  induction s with
  | nil => rfl
  | cons d ds ih =>
      show ((List.range d).flatMap (fun i => (allIndices ds).map (fun is => i :: is))).length = _
      rw [List.length_flatMap]
      have hmap : List.map (List.length ∘ fun i => (allIndices ds).map (fun is => i :: is))
          (List.range d) = List.map (fun _ => ds.prod) (List.range d) :=
        List.map_congr_left (fun i _ => by
          show ((allIndices ds).map (fun is => i :: is)).length = ds.prod
          rw [List.length_map, ih])
      rw [hmap, List.map_const', List.sum_replicate, smul_eq_mul, List.length_range,
        List.prod_cons]

theorem mem_allIndices (s : List ℕ) : ∀ i : List ℕ,
    i ∈ allIndices s ↔ List.Forall₂ (· < ·) i s := by
  induction s with
  | nil =>
      intro i
      show i ∈ [[]] ↔ _
      rw [List.forall₂_nil_right_iff]
      simp
  | cons d ds ih =>
      intro i
      show i ∈ (List.range d).flatMap (fun v => (allIndices ds).map (fun is => v :: is)) ↔ _
      rw [List.mem_flatMap]
      constructor
      · rintro ⟨v, hv, hmem⟩
        rw [List.mem_map] at hmem
        obtain ⟨is, his, rfl⟩ := hmem
        rw [List.mem_range] at hv
        exact List.Forall₂.cons hv ((ih is).mp his)
      · intro h
        cases i with
        | nil => cases h
        | cons v is =>
            cases h with
            | cons hv his =>
                refine ⟨v, List.mem_range.mpr hv, ?_⟩
                rw [List.mem_map]
                exact ⟨is, (ih is).mpr his, rfl⟩

theorem flatIdx_lt (s : List ℕ) : ∀ j : List ℕ,
    List.Forall₂ (· < ·) j s → flatIdx s j < s.prod := by
  induction s with
  | nil =>
      intro j hj
      rw [List.forall₂_nil_right_iff] at hj
      subst hj
      show 0 < 1
      omega
  | cons d ds ih =>
      intro j hj
      cases hj with
      | cons hv his =>
          rename_i v is
          show v * ds.prod + flatIdx ds is < (d :: ds).prod
          rw [List.prod_cons]
          have h1 := ih is his
          have h2 : v * ds.prod + ds.prod ≤ d * ds.prod := by
            have : (v + 1) * ds.prod ≤ d * ds.prod := Nat.mul_le_mul_right _ hv
            rw [Nat.succ_mul] at this
            omega
          omega

theorem getElem?_flatMap_uniform {α β : Type} (g : α → List β) (P : ℕ)
    (hP : ∀ x, (g x).length = P) :
    ∀ (vs : List α) (i q : ℕ), q < P →
      (vs.flatMap g)[i * P + q]? = vs[i]?.bind (fun v => (g v)[q]?) := by
  intro vs
  induction vs with
  | nil =>
      intro i q hq
      simp
  | cons v vs ih =>
      intro i q hq
      rw [List.flatMap_cons]
      cases i with
      | zero =>
          rw [Nat.zero_mul, Nat.zero_add, List.getElem?_append,
            if_pos (by rw [hP]; exact hq)]
          simp
      | succ i =>
          have hge : (g v).length ≤ (i + 1) * P + q := by
            rw [hP, Nat.succ_mul]
            omega
          rw [List.getElem?_append_right hge, hP]
          have harith : (i + 1) * P + q - P = i * P + q := by
            rw [Nat.succ_mul]
            omega
          rw [harith, ih i q hq]
          simp

theorem getElem?_allIndices (s : List ℕ) : ∀ j : List ℕ,
    List.Forall₂ (· < ·) j s → (allIndices s)[flatIdx s j]? = some j := by
  induction s with
  | nil =>
      intro j hj
      rw [List.forall₂_nil_right_iff] at hj
      subst hj
      rfl
  | cons d ds ih =>
      intro j hj
      cases hj with
      | cons hv his =>
          rename_i v is
          show ((List.range d).flatMap
            (fun i => (allIndices ds).map (fun t => i :: t)))[v * ds.prod + flatIdx ds is]? =
            some (v :: is)
          rw [getElem?_flatMap_uniform (fun i => (allIndices ds).map (fun t => i :: t)) ds.prod
            (fun x => by rw [List.length_map, length_allIndices]) (List.range d) v
            (flatIdx ds is) (flatIdx_lt ds is his)]
          rw [List.getElem?_range hv]
          show ((allIndices ds).map (fun t => v :: t))[flatIdx ds is]? = some (v :: is)
          rw [List.getElem?_map, ih is his]
          rfl

theorem foldl_if_false {γ β : Type} (g : β → γ → β) (pred : γ → Bool) :
    ∀ (l : List γ) (z : β), (∀ i ∈ l, pred i = false) →
      l.foldl (fun acc i => if pred i then g acc i else acc) z = z := by
  intro l
  induction l with
  | nil => intro z _; rfl
  | cons x l ih =>
      intro z h
      show List.foldl _ (if pred x then g z x else z) l = z
      rw [h x (List.mem_cons_self x l), if_neg (by simp)]
      exact ih z (fun i hi => h i (List.mem_cons_of_mem x hi))

theorem foldl_congr_mem {γ β : Type} (f1 f2 : β → γ → β) :
    ∀ (l : List γ) (z : β), (∀ (b : β) (i : γ), i ∈ l → f1 b i = f2 b i) →
      l.foldl f1 z = l.foldl f2 z := by
  intro l
  induction l with
  | nil => intro z _; rfl
  | cons x l ih =>
      intro z h
      show List.foldl f1 (f1 z x) l = List.foldl f2 (f2 z x) l
      rw [h z x (List.mem_cons_self x l)]
      exact ih (f2 z x) (fun b i hi => h b i (List.mem_cons_of_mem x hi))

end IndexingLemmas

section BroadcastLemmas

theorem bcastRev_right_le : ∀ xs ys : List ℕ, bcastRev xs ys = some ys →
    xs.length ≤ ys.length := by
  intro xs
  induction xs with
  | nil => intro ys _; simp
  | cons x xs ih =>
      intro ys h
      cases ys with
      | nil =>
          injection h with h
          exact absurd h (by simp)
      | cons y ys =>
          unfold bcastRev at h
          cases hrec : bcastRev xs ys with
          | none =>
              rw [hrec] at h
              exact Option.noConfusion h
          | some rest =>
              rw [hrec] at h
              have hlen : xs.length ≤ ys.length := by
                split_ifs at h with h1 h2 h3
                · injection h with h
                  injection h with hh ht
                  exact ih ys (ht ▸ hrec)
                · injection h with h
                  injection h with hh ht
                  exact ih ys (ht ▸ hrec)
                · injection h with h
                  injection h with hh ht
                  exact ih ys (ht ▸ hrec)
              simp only [List.length_cons]
              omega

theorem bcastRev_compat : ∀ xs ys ir : List ℕ, bcastRev xs ys = some ys →
    List.Forall₂ (· < ·) ir ys →
    List.Forall₂ (· < ·)
      (List.zipWith (fun sz i => if sz = 1 then 0 else i) xs ir) xs := by
  intro xs
  induction xs with
  | nil =>
      intro ys ir _ _
      exact List.Forall₂.nil
  | cons x xs ih =>
      intro ys ir h hir
      cases ys with
      | nil =>
          injection h with h
          exact absurd h (by simp)
      | cons y ys =>
          unfold bcastRev at h
          cases hrec : bcastRev xs ys with
          | none =>
              rw [hrec] at h
              exact Option.noConfusion h
          | some rest =>
              rw [hrec] at h
              cases ir with
              | nil => cases hir
              | cons i ir =>
                  cases hir with
                  | cons hiy hir2 =>
                      show List.Forall₂ (· < ·)
                        ((if x = 1 then 0 else i) ::
                          List.zipWith (fun sz t => if sz = 1 then 0 else t) xs ir) (x :: xs)
                      split_ifs at h with h1 h2 h3
                      · injection h with h
                        injection h with hh ht
                        refine List.Forall₂.cons ?_ (ih ys ir (ht ▸ hrec) hir2)
                        by_cases hx1 : x = 1
                        · rw [if_pos hx1, hx1]
                          omega
                        · rw [if_neg hx1, h1]
                          exact hiy
                      · injection h with h
                        injection h with hh ht
                        refine List.Forall₂.cons ?_ (ih ys ir (ht ▸ hrec) hir2)
                        rw [if_pos h2, h2]
                        omega
                      · injection h with h
                        injection h with hh ht
                        exact absurd hh h1

theorem zipWith_take_right {α β γ : Type} (f : α → β → γ) :
    ∀ (xs : List α) (ys : List β),
      List.zipWith f xs (ys.take xs.length) = List.zipWith f xs ys := by
  intro xs
  induction xs with
  | nil => intro ys; rfl
  | cons x xs ih =>
      intro ys
      cases ys with
      | nil => rfl
      | cons y ys =>
          show f x y :: List.zipWith f xs (ys.take xs.length) = f x y :: List.zipWith f xs ys
          rw [ih ys]

theorem zipWith_reverse_eq {α β γ : Type} (f : α → β → γ) :
    ∀ (xs : List α) (ys : List β), xs.length = ys.length →
      (List.zipWith f xs ys).reverse = List.zipWith f xs.reverse ys.reverse := by
  intro xs
  induction xs with
  | nil =>
      intro ys h
      have hnil : ys = [] := List.length_eq_zero.mp h.symm
      subst hnil
      rfl
  | cons x xs ih =>
      intro ys h
      cases ys with
      | nil => simp at h
      | cons y ys =>
          simp only [List.length_cons] at h
          have hlen : xs.length = ys.length := by omega
          show (f x y :: List.zipWith f xs ys).reverse = _
          rw [List.reverse_cons, ih ys hlen, List.reverse_cons, List.reverse_cons,
            List.zipWith_append _ _ _ _ _ (by rw [List.length_reverse, List.length_reverse, hlen])]
          rfl

theorem bIndex_reverse (ms i : List ℕ) (h : ms.length ≤ i.length) :
    (bIndex ms i).reverse =
      List.zipWith (fun sz idx => if sz = 1 then 0 else idx) ms.reverse i.reverse := by
  unfold bIndex
  rw [zipWith_reverse_eq _ ms (i.drop (i.length - ms.length))
    (by rw [List.length_drop]; omega)]
  rw [List.reverse_drop]
  have harith : i.length - (i.length - ms.length) = ms.length := by omega
  rw [harith, show ms.length = ms.reverse.length from (List.length_reverse ms).symm,
    zipWith_take_right]

theorem bIndex_in_range (ms s i : List ℕ) (hb : broadcastShapes ms s = some s)
    (hi : List.Forall₂ (· < ·) i s) :
    List.Forall₂ (· < ·) (bIndex ms i) ms := by
  have hrev : bcastRev ms.reverse s.reverse = some s.reverse := by
    unfold broadcastShapes at hb
    cases hr : bcastRev ms.reverse s.reverse with
    | none =>
        rw [hr] at hb
        exact Option.noConfusion hb
    | some r =>
        rw [hr] at hb
        injection hb with hb
        rw [show r = s.reverse by rw [← hb, List.reverse_reverse]]
  have hlen : ms.reverse.length ≤ s.reverse.length := bcastRev_right_le _ _ hrev
  have hleni : ms.length ≤ i.length := by
    have hseq := hi.length_eq
    simp only [List.length_reverse] at hlen
    omega
  have hcompat := bcastRev_compat ms.reverse s.reverse i.reverse hrev
    (List.forall₂_reverse_iff.mpr hi)
  rw [← bIndex_reverse ms i hleni] at hcompat
  exact List.forall₂_reverse_iff.mp hcompat

end BroadcastLemmas

theorem getD_all_true (m : NDArray Bool) (hvalid : m.data.length = m.shape.prod)
    (halltrue : ∀ b ∈ m.data, b = true) (idx : List ℕ)
    (hin : List.Forall₂ (· < ·) idx m.shape) : m.getD idx false = true := by
  unfold NDArray.getD
  have hlt : flatIdx m.shape idx < m.data.length := by
    rw [hvalid]
    exact flatIdx_lt m.shape idx hin
  rw [List.getD_eq_getElem?_getD, List.getElem?_eq_getElem hlt]
  exact halltrue _ (List.getElem_mem hlt)

theorem targetShapeE_cons (s : List ℕ) (d : ℤ) (ds : List ℤ) :
    targetShapeE s (d :: ds) =
      match tupleGet s d, targetShapeE s ds with
      | .error e, _ => .error e
      | .ok _, .error e => .error e
      | .ok x, .ok xs => .ok (x :: xs) := rfl

theorem tupleGet_natCast (s : List ℕ) (k : ℕ) (hk : k < s.length) :
    tupleGet s (k : ℤ) = .ok (s.getD k 0) := by
  unfold tupleGet
  have hpn : pyNorm s.length (k : ℤ) = (k : ℤ) := by
    unfold pyNorm
    rw [if_pos (Int.natCast_nonneg k)]
  rw [hpn, if_pos ⟨Int.natCast_nonneg k, by exact_mod_cast hk⟩, Int.toNat_natCast]

theorem targetShapeE_mapNat (s : List ℕ) : ∀ ks : List ℕ, (∀ k ∈ ks, k < s.length) →
    targetShapeE s (List.map (fun k : ℕ => (k : ℤ)) ks) =
      .ok (ks.map (fun k => s.getD k 0)) := by
  intro ks
  induction ks with
  | nil => intro _; rfl
  | cons k ks ih =>
      intro hb
      rw [List.map_cons, targetShapeE_cons,
        tupleGet_natCast s k (hb k (List.mem_cons_self k ks)),
        ih (fun x hx => hb x (List.mem_cons_of_mem k hx))]
      rfl

theorem map_getD_range : ∀ s : List ℕ, (List.range s.length).map (fun k => s.getD k 0) = s := by
  intro s
  induction s with
  | nil => rfl
  | cons x xs ih =>
      show (List.range (xs.length + 1)).map (fun k => (x :: xs).getD k 0) = x :: xs
      rw [List.range_succ_eq_map, List.map_cons, List.map_map]
      have hcomp : ((fun k => (x :: xs).getD k 0) ∘ Nat.succ) = (fun k => xs.getD k 0) := by
        funext k
        rfl
      rw [hcomp, ih]
      rfl

theorem targetShapeE_range (s : List ℕ) : targetShapeE s (intRangeZ s.length) = .ok s := by
  unfold intRangeZ
  rw [targetShapeE_mapNat s (List.range s.length) (fun k hk => List.mem_range.mp hk),
    map_getD_range]

theorem buildShape_nil_norm : ∀ (rem : List ℕ) (p : ℕ), buildShape [] rem.length p rem = rem := by
  intro rem
  induction rem with
  | nil => intro _; rfl
  | cons x xs ih =>
      intro p
      show buildShape [] (xs.length + 1) p (x :: xs) = x :: xs
      rw [buildShape_succ, if_neg (by simp)]
      show x :: buildShape [] xs.length (p + 1) xs = x :: xs
      rw [ih (p + 1)]

theorem expandDims_nil {α : Type} (m : NDArray α) : expandDims m [] = .ok m := by
  show Except.ok ⟨buildShape [] m.ndim 0 m.shape, m.data⟩ = Except.ok m
  rw [show buildShape [] m.ndim 0 m.shape = m.shape from buildShape_nil_norm m.shape 0]

theorem processMask_matching_rank {α : Type} (a : NDArray α) (mask : NDArray Bool)
    (hrank : mask.ndim = a.ndim)
    (hbc : broadcastShapes mask.shape a.shape = some a.shape) :
    processMask a mask none none = .ok mask := by
  have hpma : processMaskAxis a.ndim mask.ndim none none = .ok (intRangeZ a.ndim, []) := by
    rw [processMaskAxis, if_neg (by omega)]
  rw [processMask_eq_core a mask none none _ _ hpma]
  unfold processMaskCore
  have hmb : maskableB a.shape mask.shape (intRangeZ a.ndim) = .ok true := by
    unfold maskableB
    have htr : targetShapeE a.shape (intRangeZ a.ndim) = .ok a.shape := targetShapeE_range a.shape
    rw [htr]
    show (match broadcastShapes mask.shape a.shape with
        | some b => Except.ok (decide (b = a.shape))
        | none => Except.ok false) = Except.ok true
    rw [hbc]
    show Except.ok (decide (a.shape = a.shape)) = Except.ok true
    rw [decide_eq_true rfl]
  rw [hmb]
  show (if true = true then expandDims mask [] else Except.error PyError.valueError) =
    Except.ok mask
  rw [if_pos rfl, expandDims_nil]

/-- C7: `masked_sum` with an all-true mask of matching rank (no axis
override, any well-formed broadcastable mask shape) equals the plain
unmasked `jnp.sum` along the same axis, for any axis and keepdims. -/
theorem masked_sum_all_true {α : Type} [Add α] [Zero α] (a : NDArray α) (mask : NDArray Bool)
    (axis : Option PyAxis) (keepdims : Bool)
    (hrank : mask.ndim = a.ndim)
    (hbc : broadcastShapes mask.shape a.shape = some a.shape)
    (hvalid : mask.data.length = mask.shape.prod)
    (htrue : ∀ b ∈ mask.data, b = true) :
    maskedSum a mask axis none none keepdims = .ok (jnpSum a axis keepdims) := by
  have hpm := processMask_matching_rank a mask hrank hbc
  unfold maskedSum
  rw [hpm]
  show Except.ok (reduceCells (fun acc x => acc + x) 0 0 a (redAxes a.ndim axis) keepdims
    (whereAt mask)) = Except.ok (jnpSum a axis keepdims)
  refine congrArg Except.ok ?_
  unfold jnpSum reduceCells
  refine congrArg (NDArray.mk _) ?_
  apply List.map_congr_left
  intro j _
  apply foldl_congr_mem
  intro b i hi
  rw [List.mem_filter] at hi
  have hin : List.Forall₂ (· < ·) i a.shape := (mem_allIndices a.shape i).mp hi.1
  have hw : whereAt mask i = true := by
    unfold whereAt
    exact getD_all_true mask hvalid htrue _ (bIndex_in_range mask.shape a.shape i hbc hin)
  rw [hw]

theorem masked_sum_all_true_witness :
    maskedSum (⟨[2], [3, 5]⟩ : NDArray ℤ) ⟨[2], [true, true]⟩ none none none false =
      .ok (jnpSum (⟨[2], [3, 5]⟩ : NDArray ℤ) none false) :=
  masked_sum_all_true (⟨[2], [3, 5]⟩ : NDArray ℤ) ⟨[2], [true, true]⟩ none false
    rfl (by decide) (by decide) (by decide)

/-- C6: whenever the aligned mask is all-false over the reduced slice of
an output cell `j` (no masked-true element), `masked_min` puts `⊤`
(+infinity) in that cell and `masked_max` puts `⊥` (-infinity). -/
theorem masked_min_max_all_false (a : NDArray EReal) (mask m : NDArray Bool)
    (axis maskAxis nonMaskAxis : Option PyAxis) (keepdims : Bool)
    (hm : processMask a mask maskAxis nonMaskAxis = .ok m)
    (j : List ℕ)
    (hj : j ∈ allIndices (outShape a.shape (redAxes a.ndim axis) keepdims))
    (hfalse : ∀ i ∈ allIndices a.shape,
      projOutN (redAxes a.ndim axis) 0 i =
        (if keepdims then projOutN (redAxes a.ndim axis) 0 j else j) →
      whereAt m i = false) :
    (∀ rmin, maskedMin a mask axis maskAxis nonMaskAxis keepdims = .ok rmin →
      rmin.data[flatIdx (outShape a.shape (redAxes a.ndim axis) keepdims) j]? = some ⊤) ∧
    (∀ rmax, maskedMax a mask axis maskAxis nonMaskAxis keepdims = .ok rmax →
      rmax.data[flatIdx (outShape a.shape (redAxes a.ndim axis) keepdims) j]? = some ⊥) := by
  have hjf : List.Forall₂ (· < ·) j (outShape a.shape (redAxes a.ndim axis) keepdims) :=
    (mem_allIndices _ j).mp hj
  constructor
  · intro rmin hrmin
    unfold maskedMin at hrmin
    rw [hm] at hrmin
    injection hrmin with hrmin
    subst hrmin
    show ((allIndices (outShape a.shape (redAxes a.ndim axis) keepdims)).map
      (fun j => ((allIndices a.shape).filter
        (fun i => decide (projOutN (redAxes a.ndim axis) 0 i =
          (if keepdims then projOutN (redAxes a.ndim axis) 0 j else j)))).foldl
        (fun acc i => if whereAt m i then min acc (a.getD i 0) else acc) ⊤))[
      flatIdx (outShape a.shape (redAxes a.ndim axis) keepdims) j]? = some ⊤
    rw [List.getElem?_map, getElem?_allIndices _ j hjf]
    show some (((allIndices a.shape).filter
        (fun i => decide (projOutN (redAxes a.ndim axis) 0 i =
          (if keepdims then projOutN (redAxes a.ndim axis) 0 j else j)))).foldl
        (fun acc i => if whereAt m i then min acc (a.getD i 0) else acc) ⊤) = some ⊤
    refine congrArg some ?_
    apply foldl_if_false
    intro i hi
    rw [List.mem_filter] at hi
    exact hfalse i hi.1 (of_decide_eq_true hi.2)
  · intro rmax hrmax
    unfold maskedMax at hrmax
    rw [hm] at hrmax
    injection hrmax with hrmax
    subst hrmax
    show ((allIndices (outShape a.shape (redAxes a.ndim axis) keepdims)).map
      (fun j => ((allIndices a.shape).filter
        (fun i => decide (projOutN (redAxes a.ndim axis) 0 i =
          (if keepdims then projOutN (redAxes a.ndim axis) 0 j else j)))).foldl
        (fun acc i => if whereAt m i then max acc (a.getD i 0) else acc) ⊥))[
      flatIdx (outShape a.shape (redAxes a.ndim axis) keepdims) j]? = some ⊥
    rw [List.getElem?_map, getElem?_allIndices _ j hjf]
    show some (((allIndices a.shape).filter
        (fun i => decide (projOutN (redAxes a.ndim axis) 0 i =
          (if keepdims then projOutN (redAxes a.ndim axis) 0 j else j)))).foldl
        (fun acc i => if whereAt m i then max acc (a.getD i 0) else acc) ⊥) = some ⊥
    refine congrArg some ?_
    apply foldl_if_false
    intro i hi
    rw [List.mem_filter] at hi
    exact hfalse i hi.1 (of_decide_eq_true hi.2)

theorem masked_min_max_all_false_witness :
    (∀ rmin, maskedMin (⟨[1], [(0 : EReal)]⟩ : NDArray EReal) ⟨[1], [false]⟩
        none none none false = .ok rmin →
      rmin.data[flatIdx (outShape [1] (redAxes 1 none) false) []]? = some ⊤) ∧
    (∀ rmax, maskedMax (⟨[1], [(0 : EReal)]⟩ : NDArray EReal) ⟨[1], [false]⟩
        none none none false = .ok rmax →
      rmax.data[flatIdx (outShape [1] (redAxes 1 none) false) []]? = some ⊥) :=
  masked_min_max_all_false (⟨[1], [(0 : EReal)]⟩ : NDArray EReal) ⟨[1], [false]⟩
    ⟨[1], [false]⟩ none none none false (by decide) [] (by decide) (by decide)

/-- Python slice endpoint normalization for `l[a:b]`: negative endpoints
wrap by the length (clamped below at 0), positive ones clamp at the
length. -/
def pySliceIdx (len : ℕ) (e : ℤ) : ℕ := if e < 0 then (e + len).toNat else min e.toNat len

/-- Python slice `l[st:sp]`. -/
def pySliceList {α : Type} (l : List α) (st sp : ℤ) : List α :=
  (l.take (pySliceIdx l.length sp)).drop (pySliceIdx l.length st)

/-- `jnp.reshape(a, s)`: succeeds iff the element counts agree; the data
buffer is reinterpreted unchanged (row-major). -/
def reshape {α : Type} (a : NDArray α) (s : List ℕ) : Except PyError (NDArray α) :=
  if s.prod = a.shape.prod then .ok ⟨s, a.data⟩ else .error .valueError

/-- `start = 0 if start is None else start if start >= 0 else start + ndim`. -/
def normStart (nd : ℕ) (start : Option ℤ) : ℤ :=
  match start with
  | none => 0
  | some s => if 0 ≤ s then s else s + nd

/-- `stop = ndim if stop is None else stop if stop >= 0 else stop + ndim`. -/
def normStop (nd : ℕ) (stop : Option ℤ) : ℤ :=
  match stop with
  | none => nd
  | some s => if 0 ≤ s then s else s + nd

/-- Shallow embedding of `flatten(a, start, stop)`: collapses the axis
range `[start, stop)` into one axis whose size is the product of the
collapsed sizes, and returns the array together with the
`(original_shape, flatten_size)` metadata. -/
def flatten {α : Type} (a : NDArray α) (start stop : Option ℤ) :
    Except PyError (NDArray α × (List ℕ × ℕ)) :=
  match reshape a (a.shape.take (pySliceIdx a.ndim (normStart a.ndim start)) ++
      (pySliceList a.shape (normStart a.ndim start) (normStop a.ndim stop)).prod ::
      a.shape.drop (pySliceIdx a.ndim (normStop a.ndim stop))) with
  | .error e => .error e
  | .ok b => .ok (b, (pySliceList a.shape (normStart a.ndim start) (normStop a.ndim stop),
      (pySliceList a.shape (normStart a.ndim start) (normStop a.ndim stop)).prod))

/-- Shallow embedding of `unflatten(a, meta, axis)`: re-expands axis
`axis` into `meta`'s original shape; raises `ValueError` when the axis
length does not match the recorded flattened size. -/
def unflatten {α : Type} (a : NDArray α) (meta : List ℕ × ℕ) (axis : ℤ) :
    Except PyError (NDArray α) :=
  match tupleGet a.shape (pyNorm a.ndim axis) with
  | .error e => .error e
  | .ok sz =>
      if sz ≠ meta.2 then .error .valueError
      else reshape a (a.shape.take (pySliceIdx a.ndim (pyNorm a.ndim axis)) ++
        meta.1 ++ a.shape.drop (pySliceIdx a.ndim (pyNorm a.ndim axis + 1)))

section SliceLemmas

theorem pySliceIdx_nonneg (len : ℕ) (e : ℤ) (h0 : 0 ≤ e) (h1 : e ≤ (len : ℤ)) :
    pySliceIdx len e = e.toNat := by
  unfold pySliceIdx
  rw [if_neg (by omega), min_eq_left (by omega)]

theorem slice_glue {α : Type} (s : List α) (st sp : ℕ) (h : st ≤ sp) :
    s.take st ++ ((s.take sp).drop st ++ s.drop sp) = s := by
  have h1 : (s.take sp).take st = s.take st := by
    rw [List.take_take, min_eq_left h]
  rw [← h1, ← List.append_assoc, List.take_append_drop, List.take_append_drop]

theorem slice_glue_prod (s : List ℕ) (st sp : ℕ) (h : st ≤ sp) :
    (s.take st).prod * (((s.take sp).drop st).prod * (s.drop sp).prod) = s.prod := by
  conv_rhs => rw [← slice_glue s st sp h]
  rw [List.prod_append, List.prod_append]

end SliceLemmas

/-- C8 counterexample: for `a` of shape `(2,3,4)` and `start=-2`
(normalizing to 1, a valid range with `stop=None`), passing the SAME
`start` to `unflatten` renormalizes `-2` against the flattened array's
smaller rank 2, giving axis 0; the size check `2 != 12` fails and the
round trip raises instead of returning `a`. -/
theorem flatten_unflatten_cex :
    flatten (⟨[2, 3, 4], List.replicate 24 (0 : ℤ)⟩ : NDArray ℤ) (some (-2)) none =
      .ok (⟨[2, 12], List.replicate 24 (0 : ℤ)⟩, ([3, 4], 12)) ∧
    unflatten (⟨[2, 12], List.replicate 24 (0 : ℤ)⟩ : NDArray ℤ) ([3, 4], 12) (-2) =
      .error .valueError :=
  ⟨by decide, by decide⟩

theorem flatten_eval {α : Type} (a : NDArray α) (start stop : Option ℤ) (st sp : ℕ)
    (hstZ : normStart a.ndim start = (st : ℤ)) (hspZ : normStop a.ndim stop = (sp : ℤ))
    (hstsp : st ≤ sp) (hsp : sp ≤ a.ndim) :
    flatten a start stop =
      .ok (⟨a.shape.take st ++ ((a.shape.take sp).drop st).prod :: a.shape.drop sp, a.data⟩,
        ((a.shape.take sp).drop st, ((a.shape.take sp).drop st).prod)) := by
  have hndl : a.ndim = a.shape.length := rfl
  have hsi_st : pySliceIdx a.ndim (normStart a.ndim start) = st := by
    rw [hstZ, pySliceIdx_nonneg a.ndim (st : ℤ) (Int.natCast_nonneg st)
      (by omega), Int.toNat_natCast]
  have hsi_sp : pySliceIdx a.ndim (normStop a.ndim stop) = sp := by
    rw [hspZ, pySliceIdx_nonneg a.ndim (sp : ℤ) (Int.natCast_nonneg sp)
      (by omega), Int.toNat_natCast]
  have hsi_st' : pySliceIdx a.shape.length (normStart a.ndim start) = st := by
    rw [← hndl]
    exact hsi_st
  have hsi_sp' : pySliceIdx a.shape.length (normStop a.ndim stop) = sp := by
    rw [← hndl]
    exact hsi_sp
  have hmid : pySliceList a.shape (normStart a.ndim start) (normStop a.ndim stop) =
      (a.shape.take sp).drop st := by
    unfold pySliceList
    rw [hsi_st', hsi_sp']
  have hprod : (a.shape.take st ++ ((a.shape.take sp).drop st).prod ::
      a.shape.drop sp).prod = a.shape.prod := by
    rw [List.prod_append, List.prod_cons]
    exact slice_glue_prod a.shape st sp hstsp
  have hres : reshape a (a.shape.take st ++ ((a.shape.take sp).drop st).prod ::
      a.shape.drop sp) =
      .ok ⟨a.shape.take st ++ ((a.shape.take sp).drop st).prod :: a.shape.drop sp, a.data⟩ := by
    unfold reshape
    rw [if_pos hprod]
  unfold flatten
  rw [hsi_st, hsi_sp, hmid, hres]

theorem unflatten_eval {α : Type} (b : NDArray α) (pre mid suf : List ℕ) (ax : ℕ)
    (hshape : b.shape = pre ++ mid.prod :: suf) (hax : pre.length = ax) :
    unflatten b (mid, mid.prod) (ax : ℤ) = reshape b (pre ++ mid ++ suf) := by
  subst hax
  have hblen : b.shape.length = pre.length + 1 + suf.length := by
    rw [hshape, List.length_append, List.length_cons]
    omega
  have hndl : b.ndim = b.shape.length := rfl
  have hpn : pyNorm b.ndim (pre.length : ℤ) = (pre.length : ℤ) := by
    unfold pyNorm
    rw [if_pos (Int.natCast_nonneg _)]
  have hget : tupleGet b.shape (pyNorm b.ndim (pre.length : ℤ)) = .ok mid.prod := by
    rw [hpn]
    unfold tupleGet
    have hpn2 : pyNorm b.shape.length (pre.length : ℤ) = (pre.length : ℤ) := by
      unfold pyNorm
      rw [if_pos (Int.natCast_nonneg _)]
    rw [hpn2, if_pos ⟨Int.natCast_nonneg _, by rw [hblen]; push_cast; omega⟩,
      Int.toNat_natCast]
    refine congrArg Except.ok ?_
    rw [hshape, List.getD_eq_getElem?_getD,
      List.getElem?_append_right (le_refl pre.length), Nat.sub_self]
    simp
  have htake : b.shape.take (pySliceIdx b.ndim (pyNorm b.ndim (pre.length : ℤ))) = pre := by
    rw [hpn, hndl, pySliceIdx_nonneg b.shape.length (pre.length : ℤ) (Int.natCast_nonneg _)
      (by rw [hblen]; push_cast; omega), Int.toNat_natCast, hshape, List.take_left]
  have hdrop : b.shape.drop (pySliceIdx b.ndim (pyNorm b.ndim (pre.length : ℤ) + 1)) = suf := by
    have hcast : (pre.length : ℤ) + 1 = ((pre.length + 1 : ℕ) : ℤ) := by push_cast; ring
    rw [hpn, hndl, hcast, pySliceIdx_nonneg b.shape.length ((pre.length + 1 : ℕ) : ℤ)
      (Int.natCast_nonneg _) (by rw [hblen]; push_cast; omega), Int.toNat_natCast, hshape]
    rw [show pre.length + 1 = pre.length + 1 from rfl]
    rw [← List.drop_drop]
    rw [List.drop_left]
    rfl
  unfold unflatten
  rw [hget]
  show (if mid.prod ≠ (mid, mid.prod).2 then Except.error PyError.valueError
      else reshape b
        (b.shape.take (pySliceIdx b.ndim (pyNorm b.ndim (pre.length : ℤ))) ++ (mid, mid.prod).1 ++
          b.shape.drop (pySliceIdx b.ndim (pyNorm b.ndim (pre.length : ℤ) + 1)))) =
    reshape b (pre ++ mid ++ suf)
  rw [if_neg (by simp), htake, hdrop]

/-- C8 (amended): for every array and every axis range that normalizes to
`0 ≤ start' ≤ stop' ≤ rank`, `flatten` succeeds, and `unflatten` of its
result at the NORMALIZED start axis returns the original array.  (Passing
a negative `start` verbatim to `unflatten` renormalizes it against the
flattened array's smaller rank and the round trip can fail — see the
counterexample.) -/
theorem flatten_unflatten_roundtrip {α : Type} (a : NDArray α) (start stop : Option ℤ)
    (h0 : 0 ≤ normStart a.ndim start)
    (h1 : normStart a.ndim start ≤ normStop a.ndim stop)
    (h2 : normStop a.ndim stop ≤ (a.ndim : ℤ)) :
    (∃ bm, flatten a start stop = .ok bm) ∧
    (∀ b meta, flatten a start stop = .ok (b, meta) →
      unflatten b meta (normStart a.ndim start) = .ok a) := by
  obtain ⟨st, hstZ⟩ : ∃ st : ℕ, normStart a.ndim start = (st : ℤ) :=
    ⟨(normStart a.ndim start).toNat, (Int.toNat_of_nonneg h0).symm⟩
  obtain ⟨sp, hspZ⟩ : ∃ sp : ℕ, normStop a.ndim stop = (sp : ℤ) :=
    ⟨(normStop a.ndim stop).toNat, (Int.toNat_of_nonneg (le_trans h0 h1)).symm⟩
  have hstsp : st ≤ sp := by
    rw [hstZ, hspZ] at h1
    exact_mod_cast h1
  have hsp : sp ≤ a.ndim := by
    rw [hspZ] at h2
    exact_mod_cast h2
  have hndl : a.ndim = a.shape.length := rfl
  have hflat := flatten_eval a start stop st sp hstZ hspZ hstsp hsp
  refine ⟨⟨_, hflat⟩, ?_⟩
  intro b meta hbm
  rw [hflat] at hbm
  injection hbm with hbm
  injection hbm with hb hmeta
  subst hb
  subst hmeta
  rw [hstZ]
  have hl_take : (a.shape.take st).length = st := by
    rw [List.length_take]
    omega
  have hre := unflatten_eval
    (⟨a.shape.take st ++ ((a.shape.take sp).drop st).prod :: a.shape.drop sp, a.data⟩ :
      NDArray α)
    (a.shape.take st) ((a.shape.take sp).drop st) (a.shape.drop sp) st rfl hl_take
  rw [hre, List.append_assoc, slice_glue a.shape st sp hstsp]
  have hprod2 : a.shape.prod =
      (⟨a.shape.take st ++ ((a.shape.take sp).drop st).prod :: a.shape.drop sp, a.data⟩ :
        NDArray α).shape.prod := by
    show a.shape.prod = (a.shape.take st ++ ((a.shape.take sp).drop st).prod ::
      a.shape.drop sp).prod
    rw [List.prod_append, List.prod_cons]
    exact (slice_glue_prod a.shape st sp hstsp).symm
  unfold reshape
  rw [if_pos hprod2]

theorem flatten_unflatten_roundtrip_witness :
    (∃ bm, flatten (⟨[2, 3], List.replicate 6 (0 : ℤ)⟩ : NDArray ℤ) (some 1) none = .ok bm) ∧
    (∀ b meta,
      flatten (⟨[2, 3], List.replicate 6 (0 : ℤ)⟩ : NDArray ℤ) (some 1) none = .ok (b, meta) →
      unflatten b meta (normStart 2 (some 1)) = .ok ⟨[2, 3], List.replicate 6 (0 : ℤ)⟩) :=
  flatten_unflatten_roundtrip (⟨[2, 3], List.replicate 6 (0 : ℤ)⟩ : NDArray ℤ)
    (some 1) none (by decide) (by decide) (by decide)

/-- `jnp.where(c, x, fill)` with a scalar fill: broadcast the condition
and the array to a common shape (`ValueError` if incompatible) and select
elementwise. -/
def jnpWhere {α : Type} [Inhabited α] (c : NDArray Bool) (x : NDArray α) (fv : α) :
    Except PyError (NDArray α) :=
  match broadcastShapes c.shape x.shape with
  | none => .error .valueError
  | some s =>
      .ok ⟨s, (allIndices s).map (fun i =>
        if c.getD (bIndex c.shape i) false then x.getD (bIndex x.shape i) default else fv)⟩

/-- Shallow embedding of `masked_fill(a, mask, mask_axis, non_mask_axis,
fill_value)`: `jnp.where(process_mask(a, mask, ...), a, fill_value)`. -/
def maskedFill {α : Type} [Inhabited α] (a : NDArray α) (mask : NDArray Bool)
    (maskAxis nonMaskAxis : Option PyAxis) (fillValue : α) : Except PyError (NDArray α) :=
  match processMask a mask maskAxis nonMaskAxis with
  | .error e => .error e
  | .ok m => jnpWhere m a fillValue

/-- The module's last line, `apply_mask = masked_fill`: `apply_mask` is
exported as a plain alias of `masked_fill`. -/
def applyMask {α : Type} [Inhabited α] : NDArray α → NDArray Bool →
    Option PyAxis → Option PyAxis → α → Except PyError (NDArray α) := maskedFill

/-- C10: `apply_mask` is extensionally identical to `masked_fill` — on
every input it returns the same value, or raises the same error, as
`masked_fill` with the same arguments. -/
theorem apply_mask_eq_masked_fill {α : Type} [Inhabited α] (a : NDArray α)
    (mask : NDArray Bool) (maskAxis nonMaskAxis : Option PyAxis) (fillValue : α) :
    applyMask a mask maskAxis nonMaskAxis fillValue =
      maskedFill a mask maskAxis nonMaskAxis fillValue := rfl

/-- The engine's numerically-stable `logsumexp` primitive
(`jax.nn.logsumexp` with the default `b=None`, `return_sign=False`),
modelled over abstract real `log`/`exp` functions `lg`/`ex`: each output
cell is the log of the sum of exponentials over its reduced slice. -/
def logsumexpF (lg ex : ℝ → ℝ) (a : NDArray ℝ) (axis : Option PyAxis) (kd : Bool) :
    NDArray ℝ :=
  ⟨outShape a.shape (redAxes a.ndim axis) kd,
   (reduceCells (fun acc x => acc + ex x) 0 0 a (redAxes a.ndim axis) kd
     (fun _ => true)).data.map lg⟩

/-- The divider computation of `logmeanexp`: `a.size` when `axis` is
`None`; `a.shape[axis]` (Python indexing) when `axis` is an int; and for
a sequence `axis` the source evaluates `range(axis)` on a non-int, which
raises `TypeError`. -/
def dividerE {α : Type} (a : NDArray α) (axis : Option PyAxis) : Except PyError ℕ :=
  match axis with
  | none => .ok a.size
  | some (.int n) => tupleGet a.shape n
  | some (.seq _) => .error .typeError

/-- Shallow embedding of `logmeanexp(a, axis, keepdims)` (defaults
`b=None`, `return_sign=False`): `logsumexp(a, axis, keepdims) -
math.log(divider)`, where `math.log(0)` raises `ValueError`. -/
def logmeanexpF (lg ex : ℝ → ℝ) (a : NDArray ℝ) (axis : Option PyAxis) (kd : Bool) :
    Except PyError (NDArray ℝ) :=
  match dividerE a axis with
  | .error e => .error e
  | .ok d =>
      if d = 0 then .error .valueError
      else .ok ⟨(logsumexpF lg ex a axis kd).shape,
        (logsumexpF lg ex a axis kd).data.map (fun x => x - lg (d : ℝ))⟩

/-- C9 counterexample: for a sequence `axis`, `logmeanexp` does not
compute any divider — the source evaluates `range(axis)` on a list,
which raises `TypeError`, so no value `logsumexp - log(divider)` is ever
returned. -/
theorem logmeanexp_seq_axis_cex :
    logmeanexpF id id (⟨[2, 2], [0, 0, 0, 0]⟩ : NDArray ℝ) (some (.seq [0, 1])) false =
      .error .typeError := rfl

/-- C9 (amended): `logmeanexp(a, axis) = logsumexp(a, axis) -
log(divider)` holds with `divider = a.size` when `axis` is unspecified
(provided the array is non-empty, else `math.log(0)` raises) and
`divider = a.shape[axis]` when `axis` is an in-range non-zero-sized int
axis; for a sequence `axis` the call raises `TypeError` instead of
computing any divider.  The concrete scenario holds:
`logmeanexp([0,0,0,0])` equals `0`. -/
theorem logmeanexp_spec (lg ex : ℝ → ℝ) (hex : ex 0 = 1) (a : NDArray ℝ) (kd : Bool) :
    (a.size ≠ 0 →
      logmeanexpF lg ex a none kd = .ok ⟨(logsumexpF lg ex a none kd).shape,
        (logsumexpF lg ex a none kd).data.map (fun x => x - lg (a.size : ℝ))⟩) ∧
    (∀ (n : ℤ) (d : ℕ), tupleGet a.shape n = .ok d → d ≠ 0 →
      logmeanexpF lg ex a (some (.int n)) kd =
        .ok ⟨(logsumexpF lg ex a (some (.int n)) kd).shape,
          (logsumexpF lg ex a (some (.int n)) kd).data.map (fun x => x - lg (d : ℝ))⟩) ∧
    (∀ l, logmeanexpF lg ex a (some (.seq l)) kd = .error .typeError) ∧
    logmeanexpF lg ex (⟨[4], [0, 0, 0, 0]⟩ : NDArray ℝ) none false = .ok ⟨[], [0]⟩ := by
  refine ⟨?_, ?_, ?_, ?_⟩
  · intro hsize
    unfold logmeanexpF
    have hd : dividerE a none = .ok a.size := rfl
    rw [hd]
    show (if a.size = 0 then Except.error PyError.valueError
        else Except.ok (⟨(logsumexpF lg ex a none kd).shape,
          (logsumexpF lg ex a none kd).data.map (fun x => x - lg (a.size : ℝ))⟩ :
            NDArray ℝ)) = _
    rw [if_neg hsize]
  · intro n d hget hd0
    unfold logmeanexpF
    have hd : dividerE a (some (.int n)) = tupleGet a.shape n := rfl
    rw [hd, hget]
    show (if d = 0 then Except.error PyError.valueError
        else Except.ok (⟨(logsumexpF lg ex a (some (.int n)) kd).shape,
          (logsumexpF lg ex a (some (.int n)) kd).data.map (fun x => x - lg (d : ℝ))⟩ :
            NDArray ℝ)) = _
    rw [if_neg hd0]
  · intro l
    rfl
  · show Except.ok (⟨([] : List ℕ),
      [lg (0 + ex 0 + ex 0 + ex 0 + ex 0) - lg ((4 : ℕ) : ℝ)]⟩ : NDArray ℝ) =
      Except.ok (⟨([] : List ℕ), [(0 : ℝ)]⟩ : NDArray ℝ)
    rw [hex]
    norm_num

theorem logmeanexp_spec_witness :
    logmeanexpF Real.log Real.exp (⟨[4], [0, 0, 0, 0]⟩ : NDArray ℝ) none false =
      .ok ⟨[], [0]⟩ ∧
    logmeanexpF Real.log Real.exp (⟨[4], [0, 0, 0, 0]⟩ : NDArray ℝ) none false =
      .ok ⟨(logsumexpF Real.log Real.exp (⟨[4], [0, 0, 0, 0]⟩ : NDArray ℝ) none false).shape,
        (logsumexpF Real.log Real.exp (⟨[4], [0, 0, 0, 0]⟩ : NDArray ℝ) none false).data.map
          (fun x => x - Real.log (((⟨[4], [0, 0, 0, 0]⟩ : NDArray ℝ).size : ℕ) : ℝ))⟩ :=
  ⟨(logmeanexp_spec Real.log Real.exp Real.exp_zero
      (⟨[4], [0, 0, 0, 0]⟩ : NDArray ℝ) false).2.2.2,
   (logmeanexp_spec Real.log Real.exp Real.exp_zero
      (⟨[4], [0, 0, 0, 0]⟩ : NDArray ℝ) false).1 (by decide)⟩
